import Mathlib

/-!
Verification of the advisor-genealogy scraper (`src/scraper.py`).

The crawl loop, parsing pipeline and termination logic of
`MathGenealogyScraper` are shallowly embedded below.  HTML documents are
abstracted to the data the two extraction passes actually read: the first
heading's text, the ordered list of profile links (each tagged with whether
its enclosing text contains the label "Advisor"), and the positional
degree-information block.  Machine floats of the politeness delay are
modelled over `ℚ`.  The crawl loop itself is embedded step by step with
explicit state, plus two observational ghost logs (`procLog` for every
visited-set insertion, `enqLog` for every queue insertion) that record the
temporal events the specification speaks about; the ghost logs are never
read by the loop.
-/

/-- Characters matched by Python's `\s` (and stripped by `str.strip()`):
ASCII whitespace and the Unicode white-space code points. -/
def isPySpace (c : Char) : Bool :=
  (9 ≤ c.val && c.val ≤ 13) || (28 ≤ c.val && c.val ≤ 32) ||
  c.val = 133 || c.val = 160 || c.val = 5760 ||
  (8192 ≤ c.val && c.val ≤ 8202) || c.val = 8232 || c.val = 8233 ||
  c.val = 8239 || c.val = 8287 || c.val = 12288

/-- `re.sub(r'\s+', ' ', text)` on a character list: every maximal run of
whitespace is replaced by a single space.  The flag records whether the
previous character belonged to a whitespace run already rewritten. -/
def subWsF : Bool → List Char → List Char
  | _, [] => []
  | prev, c :: cs =>
    if isPySpace c then
      if prev then subWsF true cs else ' ' :: subWsF true cs
    else c :: subWsF false cs

/-- Python `str.strip()` on a character list: drop whitespace from both ends. -/
def pyStrip (l : List Char) : List Char :=
  ((l.dropWhile isPySpace).reverse.dropWhile isPySpace).reverse

/-- Python `str.strip()`. -/
def pyStripStr (s : String) : String :=
  ⟨pyStrip s.data⟩

/-- `MathGenealogyScraper.collapse_whitespace`:
`re.sub(r'\s+', ' ', text).strip()`. -/
def collapse_whitespace (s : String) : String :=
  ⟨pyStrip (subWsF false s.data)⟩

/-- The politeness delay computed inside `get_page`:
`max(0, wait_sec + max(min(gauss, 0.15), -0.1))`, over `ℚ` with the Gaussian
draw `g` as a free input. -/
def random_delay (wait_sec g : ℚ) : ℚ :=
  max 0 (wait_sec + max (min g (15 / 100)) (-(1 / 10)))

/-- `MathGenealogyScraper.BASE_URL`. -/
def BASE_URL : String := "https://genealogy.math.ndsu.nodak.edu"

/-- The positional degree-information block
(`#paddingWrapper > div:nth-child(6)`) abstracted to what the parser reads:
the main `span`'s text, the coloured university `span`'s text inside it, and
the `.gif` flag image's `title` attribute. -/
structure DegreeInfo where
  spanText : Option String
  univText : Option String
  flagTitle : Option String
deriving DecidableEq

/-- A fetched document, abstracted to the data the two extraction passes
read: first `h2` text, the ordered profile links
(`a[href*="id.php?id="]`, each paired with whether its parent's text
contains `"Advisor"`), and the degree-information block. -/
structure Doc where
  h2Text : Option String
  profileLinks : List (String × Bool)
  degreeInfo : Option DegreeInfo
deriving DecidableEq

/-- `MathGenealogyScraper.get_advisors`: ids of the profile links whose
enclosing text contains `"Advisor"`, in document order, duplicates kept. -/
def get_advisors (d : Doc) : List String :=
  (d.profileLinks.filter (fun p => p.2)).map (fun p => p.1)

/-- The `Mathematician` dataclass. -/
structure Mathematician where
  name : String
  id : String
  university : String
  year : String
  degree_type : String
  nationality : String
  level : Nat
  url : String
  descended_from : List String
deriving DecidableEq

/-- The `details` dictionary built inside `parse_mathematician`. -/
structure Details where
  university : String
  degree_type : String
  year : String
  nationality : String
deriving DecidableEq

/-- Extraction of `details` from the degree-information block.  `none`
models the one exception this part can raise: `str.split` with an empty
separator (university text that strips to `""`). -/
def detailsOf (info : DegreeInfo) : Option Details :=
  let nat :=
    match info.flagTitle with
    | some t => if t = "" then "" else collapse_whitespace t
    | none => ""
  match info.spanText with
  | none => some ⟨"", "", "", nat⟩
  | some spanText =>
    match info.univText with
    | none => some ⟨"", "", "", nat⟩
    | some univText =>
      let full_text := pyStripStr spanText
      let sep := pyStripStr univText
      if sep = "" then none
      else
        match full_text.splitOn sep with
        | [p0, p1] =>
          some ⟨collapse_whitespace univText, collapse_whitespace p0,
                collapse_whitespace p1, nat⟩
        | _ => some ⟨collapse_whitespace univText, "", "", nat⟩

/-- `MathGenealogyScraper.parse_mathematician`.  `none` models the caught
exception: no `h2` heading, no profile link, or the empty-separator split. -/
def parse_mathematician (d : Doc) (level : Nat) (advisors : List String) :
    Option Mathematician :=
  match d.h2Text with
  | none => none
  | some h2 =>
    match d.profileLinks.head? with
    | none => none
    | some pl =>
      match (match d.degreeInfo with
             | none => some (⟨"", "", "", ""⟩ : Details)
             | some info => detailsOf info) with
      | none => none
      | some det =>
        some { name := collapse_whitespace h2
               id := pl.1
               university := det.university
               year := det.year
               degree_type := det.degree_type
               nationality := det.nationality
               level := level
               url := BASE_URL ++ "/id.php?id=" ++ pl.1
               descended_from := advisors }

/-- The configuration fields set by `MathGenealogyScraper.__init__`. -/
structure Config where
  startId : String
  endId : Option String
  endDepth : Nat
  waitSec : ℚ
  verbose : Bool

/-- `MathGenealogyScraper.__init__`: `start_id` is stringified; `end_id` is
stringified only when truthy (`str(end_id) if end_id else None`), so the
falsy value `0` is stored as absent. -/
def mkScraper (start_id : Int) (end_id : Option Int) (end_depth : Nat)
    (wait_sec : ℚ) (verbose : Bool) : Config :=
  { startId := toString start_id
    endId :=
      match end_id with
      | none => none
      | some v => if v = 0 then none else some (toString v)
    endDepth := end_depth
    waitSec := wait_sec
    verbose := verbose }

/-- Python truthiness of `self.end_id` (an `Optional[str]`): non-`None` and
non-empty. -/
def endIdTruthy (cfg : Config) : Bool :=
  match cfg.endId with
  | none => false
  | some t => t ≠ ""

/-- The network, as a map from identifier to fetched document;
`none` is a fetch failure (`get_page` returning `None`). -/
def World : Type := String → Option Doc

/-- The advisor-citation graph induced by a world: the advisors extracted
from `v`'s page (empty when the fetch fails). -/
def advOf (w : World) (v : String) : List String :=
  match w v with
  | some d => get_advisors d
  | none => []

/-- The mutable crawl state of a run, plus two observational ghost logs:
`procLog` records every visited-set insertion `(id, level)` (each such
insertion is immediately followed by the single fetch+parse of that id) and
`enqLog` records every queue insertion.  The logs are never read by the
loop. -/
structure St where
  queue : List (String × Nat)
  visited : List String
  mathematicians : List Mathematician
  parentMap : String → List String
  targetFound : Bool
  targetLevel : Nat
  finished : Bool
  procLog : List (String × Nat)
  enqLog : List (String × Nat)

/-- The `parent_map` update: for each advisor occurrence, append the citing
id to that advisor's list (creating it empty first if absent). -/
def recordEdges (pm : String → List String) (advisors : List String)
    (cur : String) : String → List String :=
  advisors.foldl (fun m a => fun x => if x = a then m x ++ [cur] else m x) pm

/-- The queue entries appended while expanding a node processed at `level`:
its advisors not yet visited, at `level + 1` (the visited set is not
changed by the expansion loop itself, so one document's duplicate advisor
links yield duplicate entries). -/
def newsOf (visited : List String) (advisors : List String) (level : Nat) :
    List (String × Nat) :=
  (advisors.filter (fun a => decide (a ∉ visited))).map (fun a => (a, level + 1))

/-- One iteration of the `while self.queue` loop in
`MathGenealogyScraper.scrape`; `finished` models having left the loop
(queue exhausted or `break`). -/
def step (cfg : Config) (w : World) (s : St) : St :=
  if s.finished then s
  else
    match s.queue with
    | [] => { s with finished := true }
    | (current_id, level) :: rest =>
      if s.targetFound = true ∧ level > s.targetLevel then
        { s with queue := rest, finished := true }
      else if s.targetFound = false ∧ level > cfg.endDepth then
        { s with queue := rest, finished := true }
      else if current_id ∈ s.visited then
        { s with queue := rest }
      else
        let s1 : St :=
          { s with queue := rest, visited := current_id :: s.visited
                   procLog := s.procLog ++ [(current_id, level)] }
        match w current_id with
        | none => s1
        | some doc =>
          let advisors := get_advisors doc
          let s2 : St :=
            { s1 with parentMap := recordEdges s1.parentMap advisors current_id }
          match parse_mathematician doc level advisors with
          | none => s2
          | some m =>
            let s3 : St := { s2 with mathematicians := s2.mathematicians ++ [m] }
            let s4 : St :=
              if endIdTruthy cfg = true ∧ cfg.endId = some current_id ∧
                  s3.targetFound = false then
                { s3 with targetFound := true, targetLevel := level }
              else s3
            let news := newsOf s4.visited advisors level
            { s4 with queue := s4.queue ++ news, enqLog := s4.enqLog ++ news }

/-- The crawl loop, fuelled: applies `step` `fuel` times. -/
def scrapeLoop (cfg : Config) (w : World) : Nat → St → St
  | 0, s => s
  | n + 1, s => scrapeLoop cfg w n (step cfg w s)

/-- State at the start of `scrape`: the start id enqueued at level 1. -/
def initSt (cfg : Config) : St :=
  { queue := [(cfg.startId, 1)]
    visited := []
    mathematicians := []
    parentMap := fun _ => []
    targetFound := false
    targetLevel := 0
    finished := false
    procLog := []
    enqLog := [(cfg.startId, 1)] }

/-- A whole run of `MathGenealogyScraper.scrape`, fuelled. -/
def scrape (cfg : Config) (w : World) (fuel : Nat) : St :=
  scrapeLoop cfg w fuel (initSt cfg)

/-- Paths in the advisor-citation graph: `HasPath adv s v n` holds when `v`
is reachable from `s` in exactly `n` citation steps (each step follows one
extracted advisor link). -/
inductive HasPath (adv : String → List String) (s : String) : String → Nat → Prop where
  | refl : HasPath adv s s 0
  | tail {u v : String} {n : Nat} :
      HasPath adv s u n → v ∈ adv u → HasPath adv s v (n + 1)

/-- `d` is the shortest-path distance (in citation steps) from `s` to `v`. -/
def IsDist (adv : String → List String) (s v : String) (d : Nat) : Prop :=
  HasPath adv s v d ∧ ∀ e, e < d → ¬ HasPath adv s v e

/-- Processing identifier `c` at level `l` emits a record: the fetch
succeeds and the record-extraction pass succeeds. -/
def emits (w : World) (c : String) (l : Nat) : Prop :=
  ∃ doc, w c = some doc ∧
    ∃ m, parse_mathematician doc l (get_advisors doc) = some m

/-- The records produced by a processing log: one per log entry whose fetch
and parse both succeed, in log order. -/
def procRecords (w : World) (log : List (String × Nat)) : List Mathematician :=
  log.filterMap (fun e =>
    match w e.1 with
    | some doc => parse_mathematician doc e.2 (get_advisors doc)
    | none => none)

/-- The advisor-index list for key `a` produced by a processing log: for
each processed node, one copy of that node's id per occurrence of `a` in
its advisor list. -/
def parentList (w : World) (log : List (String × Nat)) (a : String) : List String :=
  (log.map (fun e => List.replicate ((advOf w e.1).count a) e.1)).flatten

/-- Identifiers reachable from `start` in at most `n` citation steps. -/
def reachSet (w : World) (start : String) : Nat → Finset String
  | 0 => {start}
  | n + 1 =>
    reachSet w start n ∪
      (reachSet w start n).biUnion (fun v => (advOf w v).toFinset)

/-- Termination measure for the crawl loop: pending queue entries plus the
total advisor-list length of the not-yet-visited identifiers that could
still be processed. -/
def crawlMeasure (cfg : Config) (w : World) (s : St) : Nat :=
  s.queue.length +
    ((reachSet w cfg.startId cfg.endDepth) \ s.visited.toFinset).sum
      (fun v => (advOf w v).length)

/-- A world with no fetch failures and no record-extraction failures, whose
documents self-identify (the first profile link of `v`'s page carries id
`v`, the documented site convention). -/
def goodWorld (w : World) : Prop :=
  ∀ v : String, ∃ doc : Doc, w v = some doc ∧
    ∀ l a, ∃ m, parse_mathematician doc l a = some m ∧
      m.id = v ∧ m.level = l ∧ m.descended_from = a

/-- A well-formed page for identifier `selfId` listing `advisors`: a title,
a self profile link first, then one advisor-labelled link per advisor. -/
def mkDoc (selfId : String) (advisors : List String) : Doc :=
  { h2Text := some "Name"
    profileLinks := (selfId, false) :: advisors.map (fun a => (a, true))
    degreeInfo := none }

/-- A page whose record extraction fails (no title heading), but whose
advisor-labelled links are still scanned by `get_advisors`. -/
def mkBadDoc (advisors : List String) : Doc :=
  { h2Text := none
    profileLinks := advisors.map (fun a => (a, true))
    degreeInfo := none }

/-- Counterexample world for C1: the start page `"A"` fails record
extraction but lists advisor `"B"`. -/
def wC1 : World := fun id =>
  if id = "A" then some (mkBadDoc ["B"])
  else if id = "B" then some (mkDoc "B" [])
  else none

/-- Counterexample world for C2 and C3: `"A"` cites the target `"B"`
(whose page fails record extraction) and `"C"`; `"C"` cites `"D"`. -/
def wC2 : World := fun id =>
  if id = "A" then some (mkDoc "A" ["B", "C"])
  else if id = "B" then some (mkBadDoc [])
  else if id = "C" then some (mkDoc "C" ["D"])
  else if id = "D" then some (mkDoc "D" [])
  else none

/-- Counterexample world for C7: `"A"`'s page lists the same advisor link
`"B"` twice. -/
def wC7 : World := fun id =>
  if id = "A" then
    some { h2Text := some "Name"
           profileLinks := [("A", false), ("B", true), ("B", true)]
           degreeInfo := none }
  else if id = "B" then some (mkDoc "B" [])
  else none

/-- Diamond world for the C5 witness: `"A"` cites `"B"` and `"C"`, which
both cite the shared advisor `"D"` (so `"D"` is enqueued twice). -/
def wC5 : World := fun id =>
  if id = "A" then some (mkDoc "A" ["B", "C"])
  else if id = "B" then some (mkDoc "B" ["D"])
  else if id = "C" then some (mkDoc "C" ["D"])
  else some (mkDoc id [])

/-- Failure-free world for the C6 witness: `"A"` cites `"B"` and `"C"`;
every other page exists, parses, and lists no advisors. -/
def wC6 : World := fun id =>
  if id = "A" then some (mkDoc "A" ["B", "C"])
  else some (mkDoc id [])

/-- Witness world for the amended C3: `"A"` cites the target `"B"` and
`"C"`; `"C"` cites `"D"`; all pages parse, so the target is found at level
2 and the level-3 entry for `"D"` is discarded by the stop rule. -/
def wC3am : World := fun id =>
  if id = "A" then some (mkDoc "A" ["B", "C"])
  else if id = "C" then some (mkDoc "C" ["D"])
  else some (mkDoc id [])

/-- A simple no-target configuration used by concrete runs. -/
def cfgNoTarget (start : String) (depth : Nat) : Config :=
  { startId := start, endId := none, endDepth := depth
    waitSec := 5 / 2, verbose := true }

/-- A configuration with a target identifier. -/
def cfgTarget (start target : String) (depth : Nat) : Config :=
  { startId := start, endId := some target, endDepth := depth
    waitSec := 5 / 2, verbose := true }

/-- Run invariant of the crawl loop (holds of every state reachable from
`initSt`, for every world): queue level-ordering and bounds, processing
bounds, visited/processing-log agreement, queue accounting for every
enqueued entry, path soundness, and the exact characterisation of the
record store, the advisor index, and the target flag. -/
structure GInv (cfg : Config) (w : World) (s : St) : Prop where
  pairwise : s.queue.Pairwise (fun e f => e.2 ≤ f.2)
  spread : ∀ e ∈ s.queue, ∀ f ∈ s.queue, e.2 ≤ f.2 + 1
  pos : ∀ e ∈ s.queue, 1 ≤ e.2
  procBelow : ∀ e ∈ s.procLog, ∀ f ∈ s.queue, e.2 ≤ f.2
  foundLevel : s.targetFound = true →
    s.targetLevel ≤ cfg.endDepth ∧ ∀ e ∈ s.procLog, e.2 ≤ s.targetLevel
  notFound : s.targetFound = false → ∀ e ∈ s.procLog, e.2 ≤ cfg.endDepth
  visitedProc : ∀ v : String, v ∈ s.visited ↔ ∃ l, (v, l) ∈ s.procLog
  procNodup : (s.procLog.map Prod.fst).Nodup
  enqAcct : ∀ e ∈ s.enqLog, e ∈ s.queue ∨ e.1 ∈ s.visited ∨
    (s.finished = true ∧
      (e.2 > cfg.endDepth ∨ (s.targetFound = true ∧ e.2 > s.targetLevel)))
  finFound : s.finished = true → s.targetFound = true →
    ∀ e ∈ s.queue, s.targetLevel < e.2
  finDepth : s.finished = true → s.targetFound = false →
    ∀ e ∈ s.queue, cfg.endDepth < e.2
  queuePath : ∀ e ∈ s.queue, HasPath (advOf w) cfg.startId e.1 (e.2 - 1)
  procPath : ∀ e ∈ s.procLog, HasPath (advOf w) cfg.startId e.1 (e.2 - 1)
  mathsEq : s.mathematicians = procRecords w s.procLog
  pmapEq : ∀ a, s.parentMap a = parentList w s.procLog a
  queueReach : ∀ e ∈ s.queue, e.1 ∈ reachSet w cfg.startId (e.2 - 1)
  tgtChar : ∀ t, cfg.endId = some t → t ≠ "" →
    (s.targetFound = true →
      (t, s.targetLevel) ∈ s.procLog ∧ emits w t s.targetLevel) ∧
    (s.targetFound = false → ∀ l, (t, l) ∈ s.procLog → ¬ emits w t l)

/-- BFS invariant for failure-free worlds, on top of `GInv`: record levels
are shortest-path distances; every unvisited queued identifier also sits in
the queue at its distance level; every identifier strictly closer than the
queue head is already visited; and the advisors of every visited
identifier are visited or queued.  The last three are maintained while the
loop is running (`finished = false`). -/
structure DInv (cfg : Config) (w : World) (s : St) : Prop where
  recDist : ∀ m ∈ s.mathematicians,
    ∃ d, m.level = d + 1 ∧ IsDist (advOf w) cfg.startId m.id d
  queueMin : s.finished = false → ∀ e ∈ s.queue, e.1 ∉ s.visited →
    ∃ d, IsDist (advOf w) cfg.startId e.1 d ∧ (e.1, d + 1) ∈ s.queue
  frontier : s.finished = false → ∀ hd, s.queue.head? = some hd →
    ∀ v d, IsDist (advOf w) cfg.startId v d → d + 1 < hd.2 → v ∈ s.visited
  closure : s.finished = false → ∀ v ∈ s.visited, ∀ a ∈ advOf w v,
    a ∈ s.visited ∨ ∃ la, (a, la) ∈ s.queue

/-- C8: the politeness sleep inside `get_page` is non-negative for every
base wait time `≥ 0` and every Gaussian jitter draw: the jitter is clamped
to `[-0.1, 0.15]`, added to the base, and the sum floored at `0`. -/
theorem random_delay_nonneg (wait_sec g : ℚ) (hw : 0 ≤ wait_sec) :
    0 ≤ random_delay wait_sec g ∧
      random_delay wait_sec g =
        max 0 (wait_sec + max (min g (15 / 100)) (-(1 / 10))) := by
  exact ⟨le_max_left 0 _, rfl⟩

/-- Witness for C8 at `wait_sec = 5/2` and jitter draw `-3`. -/
theorem random_delay_nonneg_witness :
    0 ≤ (5 / 2 : ℚ) ∧ 0 ≤ random_delay (5 / 2) (-3) := by
  exact ⟨by norm_num, (random_delay_nonneg (5 / 2) (-3) (by norm_num)).1⟩

/-! ### Characterisation of one loop iteration, branch by branch -/

theorem step_of_finished (cfg : Config) (w : World) (s : St)
    (hf : s.finished = true) : step cfg w s = s := by
  simp [step, hf]

theorem step_of_nil (cfg : Config) (w : World) (s : St)
    (hf : s.finished = false) (hq : s.queue = []) :
    step cfg w s = { s with finished := true } := by
  unfold step
  rw [hf, hq]
  simp

theorem step_break_found (cfg : Config) (w : World) (s : St)
    (c : String) (l : Nat) (rest : List (String × Nat))
    (hf : s.finished = false) (hq : s.queue = (c, l) :: rest)
    (ht : s.targetFound = true) (hl : l > s.targetLevel) :
    step cfg w s = { s with queue := rest, finished := true } := by
  unfold step
  rw [hf, hq]
  simp [ht, hl]

theorem step_break_depth (cfg : Config) (w : World) (s : St)
    (c : String) (l : Nat) (rest : List (String × Nat))
    (hf : s.finished = false) (hq : s.queue = (c, l) :: rest)
    (ht : s.targetFound = false) (hl : l > cfg.endDepth) :
    step cfg w s = { s with queue := rest, finished := true } := by
  unfold step
  rw [hf, hq]
  simp [ht, hl]

theorem step_skip (cfg : Config) (w : World) (s : St)
    (c : String) (l : Nat) (rest : List (String × Nat))
    (hf : s.finished = false) (hq : s.queue = (c, l) :: rest)
    (hb1 : ¬(s.targetFound = true ∧ l > s.targetLevel))
    (hb2 : ¬(s.targetFound = false ∧ l > cfg.endDepth))
    (hv : c ∈ s.visited) :
    step cfg w s = { s with queue := rest } := by
  unfold step
  rw [hf, hq]
  simp [hb1, hb2, hv]

theorem step_fetch_fail (cfg : Config) (w : World) (s : St)
    (c : String) (l : Nat) (rest : List (String × Nat))
    (hf : s.finished = false) (hq : s.queue = (c, l) :: rest)
    (hb1 : ¬(s.targetFound = true ∧ l > s.targetLevel))
    (hb2 : ¬(s.targetFound = false ∧ l > cfg.endDepth))
    (hv : c ∉ s.visited) (hw : w c = none) :
    step cfg w s =
      { s with queue := rest, visited := c :: s.visited
               procLog := s.procLog ++ [(c, l)] } := by
  unfold step
  rw [hf, hq]
  simp [hb1, hb2, hv, hw]

theorem step_parse_fail (cfg : Config) (w : World) (s : St)
    (c : String) (l : Nat) (rest : List (String × Nat)) (doc : Doc)
    (hf : s.finished = false) (hq : s.queue = (c, l) :: rest)
    (hb1 : ¬(s.targetFound = true ∧ l > s.targetLevel))
    (hb2 : ¬(s.targetFound = false ∧ l > cfg.endDepth))
    (hv : c ∉ s.visited) (hw : w c = some doc)
    (hm : parse_mathematician doc l (get_advisors doc) = none) :
    step cfg w s =
      { s with queue := rest, visited := c :: s.visited
               procLog := s.procLog ++ [(c, l)]
               parentMap := recordEdges s.parentMap (get_advisors doc) c } := by
  unfold step
  rw [hf, hq]
  simp [hb1, hb2, hv, hw, hm]

theorem step_process_hit (cfg : Config) (w : World) (s : St)
    (c : String) (l : Nat) (rest : List (String × Nat)) (doc : Doc)
    (m : Mathematician)
    (hf : s.finished = false) (hq : s.queue = (c, l) :: rest)
    (hb1 : ¬(s.targetFound = true ∧ l > s.targetLevel))
    (hb2 : ¬(s.targetFound = false ∧ l > cfg.endDepth))
    (hv : c ∉ s.visited) (hw : w c = some doc)
    (hm : parse_mathematician doc l (get_advisors doc) = some m)
    (hhit : endIdTruthy cfg = true ∧ cfg.endId = some c ∧ s.targetFound = false) :
    step cfg w s =
      { s with queue := rest ++ newsOf (c :: s.visited) (get_advisors doc) l
               visited := c :: s.visited
               mathematicians := s.mathematicians ++ [m]
               parentMap := recordEdges s.parentMap (get_advisors doc) c
               targetFound := true
               targetLevel := l
               procLog := s.procLog ++ [(c, l)]
               enqLog := s.enqLog ++ newsOf (c :: s.visited) (get_advisors doc) l } := by
  have hle : ¬ l > cfg.endDepth := fun h => hb2 ⟨hhit.2.2, h⟩
  unfold step
  rw [hf, hq]
  simp [hb1, hb2, hv, hw, hm, hhit, hle]

theorem step_process_miss (cfg : Config) (w : World) (s : St)
    (c : String) (l : Nat) (rest : List (String × Nat)) (doc : Doc)
    (m : Mathematician)
    (hf : s.finished = false) (hq : s.queue = (c, l) :: rest)
    (hb1 : ¬(s.targetFound = true ∧ l > s.targetLevel))
    (hb2 : ¬(s.targetFound = false ∧ l > cfg.endDepth))
    (hv : c ∉ s.visited) (hw : w c = some doc)
    (hm : parse_mathematician doc l (get_advisors doc) = some m)
    (hmiss : ¬(endIdTruthy cfg = true ∧ cfg.endId = some c ∧ s.targetFound = false)) :
    step cfg w s =
      { s with queue := rest ++ newsOf (c :: s.visited) (get_advisors doc) l
               visited := c :: s.visited
               mathematicians := s.mathematicians ++ [m]
               parentMap := recordEdges s.parentMap (get_advisors doc) c
               procLog := s.procLog ++ [(c, l)]
               enqLog := s.enqLog ++ newsOf (c :: s.visited) (get_advisors doc) l } := by
  unfold step
  rw [hf, hq]
  simp [hb1, hb2, hv, hw, hm, hmiss]

/-- Master case analysis for one loop iteration: any predicate holding on
every branch's result holds of `step`. -/
theorem step_cases (cfg : Config) (w : World) (s : St) (P : St → Prop)
    (h_fin : s.finished = true → P s)
    (h_nil : s.finished = false → s.queue = [] → P { s with finished := true })
    (h_bf : ∀ c l rest, s.finished = false → s.queue = (c, l) :: rest →
      s.targetFound = true → l > s.targetLevel →
      P { s with queue := rest, finished := true })
    (h_bd : ∀ c l rest, s.finished = false → s.queue = (c, l) :: rest →
      s.targetFound = false → l > cfg.endDepth →
      P { s with queue := rest, finished := true })
    (h_skip : ∀ c l rest, s.finished = false → s.queue = (c, l) :: rest →
      ¬(s.targetFound = true ∧ l > s.targetLevel) →
      ¬(s.targetFound = false ∧ l > cfg.endDepth) →
      c ∈ s.visited → P { s with queue := rest })
    (h_ff : ∀ c l rest, s.finished = false → s.queue = (c, l) :: rest →
      ¬(s.targetFound = true ∧ l > s.targetLevel) →
      ¬(s.targetFound = false ∧ l > cfg.endDepth) →
      c ∉ s.visited → w c = none →
      P { s with queue := rest, visited := c :: s.visited
                 procLog := s.procLog ++ [(c, l)] })
    (h_pf : ∀ c l rest doc, s.finished = false → s.queue = (c, l) :: rest →
      ¬(s.targetFound = true ∧ l > s.targetLevel) →
      ¬(s.targetFound = false ∧ l > cfg.endDepth) →
      c ∉ s.visited → w c = some doc →
      parse_mathematician doc l (get_advisors doc) = none →
      P { s with queue := rest, visited := c :: s.visited
                 procLog := s.procLog ++ [(c, l)]
                 parentMap := recordEdges s.parentMap (get_advisors doc) c })
    (h_hit : ∀ c l rest doc m, s.finished = false → s.queue = (c, l) :: rest →
      ¬(s.targetFound = true ∧ l > s.targetLevel) →
      ¬(s.targetFound = false ∧ l > cfg.endDepth) →
      c ∉ s.visited → w c = some doc →
      parse_mathematician doc l (get_advisors doc) = some m →
      endIdTruthy cfg = true ∧ cfg.endId = some c ∧ s.targetFound = false →
      P { s with queue := rest ++ newsOf (c :: s.visited) (get_advisors doc) l
                 visited := c :: s.visited
                 mathematicians := s.mathematicians ++ [m]
                 parentMap := recordEdges s.parentMap (get_advisors doc) c
                 targetFound := true
                 targetLevel := l
                 procLog := s.procLog ++ [(c, l)]
                 enqLog := s.enqLog ++ newsOf (c :: s.visited) (get_advisors doc) l })
    (h_miss : ∀ c l rest doc m, s.finished = false → s.queue = (c, l) :: rest →
      ¬(s.targetFound = true ∧ l > s.targetLevel) →
      ¬(s.targetFound = false ∧ l > cfg.endDepth) →
      c ∉ s.visited → w c = some doc →
      parse_mathematician doc l (get_advisors doc) = some m →
      ¬(endIdTruthy cfg = true ∧ cfg.endId = some c ∧ s.targetFound = false) →
      P { s with queue := rest ++ newsOf (c :: s.visited) (get_advisors doc) l
                 visited := c :: s.visited
                 mathematicians := s.mathematicians ++ [m]
                 parentMap := recordEdges s.parentMap (get_advisors doc) c
                 procLog := s.procLog ++ [(c, l)]
                 enqLog := s.enqLog ++ newsOf (c :: s.visited) (get_advisors doc) l }) :
    P (step cfg w s) := by
  cases hsf : s.finished with
  | true => rw [step_of_finished cfg w s hsf]; exact h_fin hsf
  | false =>
    cases hq : s.queue with
    | nil => rw [step_of_nil cfg w s hsf hq]; exact h_nil hsf hq
    | cons e rest =>
      obtain ⟨c, l⟩ := e
      by_cases hb1 : s.targetFound = true ∧ l > s.targetLevel
      · rw [step_break_found cfg w s c l rest hsf hq hb1.1 hb1.2]
        exact h_bf c l rest hsf hq hb1.1 hb1.2
      · by_cases hb2 : s.targetFound = false ∧ l > cfg.endDepth
        · rw [step_break_depth cfg w s c l rest hsf hq hb2.1 hb2.2]
          exact h_bd c l rest hsf hq hb2.1 hb2.2
        · by_cases hv : c ∈ s.visited
          · rw [step_skip cfg w s c l rest hsf hq hb1 hb2 hv]
            exact h_skip c l rest hsf hq hb1 hb2 hv
          · cases hw : w c with
            | none =>
              rw [step_fetch_fail cfg w s c l rest hsf hq hb1 hb2 hv hw]
              exact h_ff c l rest hsf hq hb1 hb2 hv hw
            | some doc =>
              cases hm : parse_mathematician doc l (get_advisors doc) with
              | none =>
                rw [step_parse_fail cfg w s c l rest doc hsf hq hb1 hb2 hv hw hm]
                exact h_pf c l rest doc hsf hq hb1 hb2 hv hw hm
              | some m =>
                by_cases hh : endIdTruthy cfg = true ∧ cfg.endId = some c ∧
                    s.targetFound = false
                · rw [step_process_hit cfg w s c l rest doc m hsf hq hb1 hb2 hv hw hm hh]
                  exact h_hit c l rest doc m hsf hq hb1 hb2 hv hw hm hh
                · rw [step_process_miss cfg w s c l rest doc m hsf hq hb1 hb2 hv hw hm hh]
                  exact h_miss c l rest doc m hsf hq hb1 hb2 hv hw hm hh

/-- Counterexample to C1: in world `wC1` the start node `"A"` fails record
extraction; its advisor `"B"` is recorded in the Advisor Index, but —
contrary to the claim — `"B"` is never enqueued (at level 2 or at all) and
is never visited, because queue expansion sits inside the
parse-success branch of `scrape`. -/
theorem parse_fail_no_enqueue_cex :
    wC1 "A" = some (mkBadDoc ["B"]) ∧
    parse_mathematician (mkBadDoc ["B"]) 1 (get_advisors (mkBadDoc ["B"])) = none ∧
    get_advisors (mkBadDoc ["B"]) = ["B"] ∧
    ("A", 1) ∈ (scrape (cfgNoTarget "A" 5) wC1 10).procLog ∧
    (scrape (cfgNoTarget "A" 5) wC1 10).parentMap "B" = ["A"] ∧
    (scrape (cfgNoTarget "A" 5) wC1 10).finished = true ∧
    ("B", 2) ∉ (scrape (cfgNoTarget "A" 5) wC1 10).enqLog ∧
    "B" ∉ (scrape (cfgNoTarget "A" 5) wC1 10).visited := by
  refine ⟨rfl, by decide, by decide, by decide, by decide, by decide, by decide, by decide⟩

/-- C1 (amended): when a node's record-extraction pass fails, the node
still contributes edges to the Advisor Index, but — unlike the claim —
its advisors are NOT enqueued: the whole expansion step (record append,
target check, and frontier enqueue) is skipped, so the queue and the
enqueue log are left unchanged. -/
theorem parse_failure_records_edges_but_skips_expansion
    (cfg : Config) (w : World) (s : St) (c : String) (l : Nat)
    (rest : List (String × Nat)) (doc : Doc)
    (hf : s.finished = false) (hq : s.queue = (c, l) :: rest)
    (hb1 : ¬(s.targetFound = true ∧ l > s.targetLevel))
    (hb2 : ¬(s.targetFound = false ∧ l > cfg.endDepth))
    (hv : c ∉ s.visited) (hw : w c = some doc)
    (hm : parse_mathematician doc l (get_advisors doc) = none) :
    (step cfg w s).parentMap = recordEdges s.parentMap (get_advisors doc) c ∧
    (step cfg w s).mathematicians = s.mathematicians ∧
    (step cfg w s).queue = rest ∧
    (step cfg w s).enqLog = s.enqLog ∧
    (step cfg w s).visited = c :: s.visited := by
  rw [step_parse_fail cfg w s c l rest doc hf hq hb1 hb2 hv hw hm]
  exact ⟨rfl, rfl, rfl, rfl, rfl⟩

/-- Witness for the amended C1 at the concrete initial state of the `wC1`
run: processing `"A"` at level 1 with a failing parse. -/
theorem parse_failure_records_edges_but_skips_expansion_witness :
    (step (cfgNoTarget "A" 5) wC1 (initSt (cfgNoTarget "A" 5))).parentMap =
      recordEdges (initSt (cfgNoTarget "A" 5)).parentMap
        (get_advisors (mkBadDoc ["B"])) "A" ∧
    (step (cfgNoTarget "A" 5) wC1 (initSt (cfgNoTarget "A" 5))).mathematicians =
      (initSt (cfgNoTarget "A" 5)).mathematicians ∧
    (step (cfgNoTarget "A" 5) wC1 (initSt (cfgNoTarget "A" 5))).queue = [] ∧
    (step (cfgNoTarget "A" 5) wC1 (initSt (cfgNoTarget "A" 5))).enqLog =
      (initSt (cfgNoTarget "A" 5)).enqLog ∧
    (step (cfgNoTarget "A" 5) wC1 (initSt (cfgNoTarget "A" 5))).visited =
      "A" :: (initSt (cfgNoTarget "A" 5)).visited :=
  parse_failure_records_edges_but_skips_expansion
    (cfgNoTarget "A" 5) wC1 (initSt (cfgNoTarget "A" 5)) "A" 1 [] (mkBadDoc ["B"])
    rfl rfl (by decide) (by decide) (by decide) rfl (by decide)

/-- Counterexample to C2: in world `wC2` the target `"B"` is dequeued and
enters the visited set (it is in the processing log at level 2), yet the
SEARCHING → FOUND transition never fires, because `"B"`'s record
extraction fails and the transition sits inside the parse-success branch. -/
theorem target_transition_needs_parse_cex :
    (cfgTarget "A" "B" 5).endId = some "B" ∧
    ("B", 2) ∈ (scrape (cfgTarget "A" "B" 5) wC2 10).procLog ∧
    "B" ∈ (scrape (cfgTarget "A" "B" 5) wC2 10).visited ∧
    (scrape (cfgTarget "A" "B" 5) wC2 10).finished = true ∧
    (scrape (cfgTarget "A" "B" 5) wC2 10).targetFound = false := by
  refine ⟨rfl, by decide, by decide, by decide, by decide⟩

/-- Counterexample to C7: in world `wC7` the single document of `"A"` lists
the advisor link `"B"` twice, and the Advisor Index entry for `"B"` holds
the citing id `"A"` twice — a duplicate entry. -/
theorem advisor_index_duplicates_cex :
    (scrape (cfgNoTarget "A" 5) wC7 10).parentMap "B" = ["A", "A"] ∧
    ¬ ((scrape (cfgNoTarget "A" 5) wC7 10).parentMap "B").Nodup := by
  refine ⟨by decide, by decide⟩

theorem step_targetFound_of_none (cfg : Config) (w : World) (s : St)
    (h : cfg.endId = none) : (step cfg w s).targetFound = s.targetFound := by
  refine step_cases cfg w s (fun s' => s'.targetFound = s.targetFound)
    (fun _ => rfl) (fun _ _ => rfl) (fun _ _ _ _ _ _ _ => rfl)
    (fun _ _ _ _ _ _ _ => rfl) (fun _ _ _ _ _ _ _ _ => rfl)
    (fun _ _ _ _ _ _ _ _ _ => rfl) (fun _ _ _ _ _ _ _ _ _ _ _ => rfl)
    (fun c _ _ _ _ _ _ _ _ _ _ _ hh => absurd hh.2.1 (by rw [h]; exact fun hx => Option.noConfusion hx))
    (fun _ _ _ _ _ _ _ _ _ _ _ _ _ => rfl)

theorem scrapeLoop_targetFound_of_none (cfg : Config) (w : World)
    (h : cfg.endId = none) :
    ∀ (n : Nat) (s : St), (scrapeLoop cfg w n s).targetFound = s.targetFound := by
  intro n
  induction n with
  | zero => intro s; rfl
  | succ n ih =>
    intro s
    rw [scrapeLoop, ih (step cfg w s), step_targetFound_of_none cfg w s h]

/-- C10: constructing the scraper with the falsy target identifier `0`
stores no target at all — the configuration is literally the one built with
no target — and with no stored target the SEARCHING → FOUND transition can
never fire in any run, leaving only the max-depth stop rule. -/
theorem falsy_target_behaves_as_no_target :
    (∀ (start_id : Int) (end_depth : Nat) (wait_sec : ℚ) (verbose : Bool),
      mkScraper start_id (some 0) end_depth wait_sec verbose =
        mkScraper start_id none end_depth wait_sec verbose) ∧
    (∀ (cfg : Config), cfg.endId = none → ∀ (w : World) (n : Nat),
      (scrape cfg w n).targetFound = false) := by
  constructor
  · intro start_id end_depth wait_sec verbose
    simp [mkScraper]
  · intro cfg h w n
    unfold scrape
    rw [scrapeLoop_targetFound_of_none cfg w h n (initSt cfg)]
    rfl

/-- Witness for C10: the `0`-target configuration at concrete arguments,
and a concrete no-target run that never fires the transition. -/
theorem falsy_target_behaves_as_no_target_witness :
    (mkScraper 3 (some 0) 15 (5 / 2) true = mkScraper 3 none 15 (5 / 2) true) ∧
    (cfgNoTarget "A" 5).endId = none ∧
    (scrape (cfgNoTarget "A" 5) wC5 20).targetFound = false :=
  ⟨falsy_target_behaves_as_no_target.1 3 15 (5 / 2) true, rfl,
    falsy_target_behaves_as_no_target.2 (cfgNoTarget "A" 5) rfl wC5 20⟩

/-! ### List-level helper lemmas -/

theorem mem_newsOf (vis : List String) (adv : List String) (l : Nat)
    (e : String × Nat) :
    e ∈ newsOf vis adv l ↔ e.1 ∈ adv ∧ e.1 ∉ vis ∧ e.2 = l + 1 := by
  unfold newsOf
  constructor
  · intro h
    obtain ⟨a, ha, rfl⟩ := List.mem_map.1 h
    obtain ⟨ha1, ha2⟩ := List.mem_filter.1 ha
    exact ⟨ha1, of_decide_eq_true ha2, rfl⟩
  · intro ⟨h1, h2, h3⟩
    obtain ⟨a, b⟩ := e
    simp only at h1 h2 h3
    subst h3
    exact List.mem_map.2 ⟨a, List.mem_filter.2 ⟨h1, decide_eq_true h2⟩, rfl⟩

theorem recordEdges_apply (adv : List String) (pm : String → List String)
    (c a : String) :
    recordEdges pm adv c a = pm a ++ List.replicate (adv.count a) c := by
  induction adv generalizing pm with
  | nil => simp [recordEdges]
  | cons b rest ih =>
    show recordEdges (fun x => if x = b then pm x ++ [c] else pm x) rest c a = _
    rw [ih]
    by_cases hab : a = b
    · subst hab
      simp [List.count_cons, List.replicate_succ]
    · simp [hab, List.count_cons]

theorem procRecords_append (w : World) (log : List (String × Nat))
    (c : String) (l : Nat) :
    procRecords w (log ++ [(c, l)]) =
      procRecords w log ++
        (match w c with
         | some doc => parse_mathematician doc l (get_advisors doc)
         | none => none).toList := by
  unfold procRecords
  rw [List.filterMap_append]
  cases h : w c with
  | none => simp [List.filterMap_cons, h]
  | some doc =>
    simp only [List.filterMap_cons, h]
    cases parse_mathematician doc l (get_advisors doc) <;> simp

theorem parentList_append (w : World) (log : List (String × Nat))
    (c : String) (l : Nat) (a : String) :
    parentList w (log ++ [(c, l)]) a =
      parentList w log a ++ List.replicate ((advOf w c).count a) c := by
  unfold parentList
  rw [List.map_append, List.flatten_append]
  simp

/-! ### Preservation of the run invariant, branch by branch -/

theorem GInv_nil (cfg : Config) (w : World) (s : St) (G : GInv cfg w s)
    (hf : s.finished = false) (hq : s.queue = []) :
    GInv cfg w { s with finished := true } := by
  refine ⟨G.pairwise, G.spread, G.pos, G.procBelow, G.foundLevel, G.notFound,
    G.visitedProc, G.procNodup, ?_, ?_, ?_, G.queuePath, G.procPath,
    G.mathsEq, G.pmapEq, G.queueReach, G.tgtChar⟩
  · intro e he
    rcases G.enqAcct e he with h | h | h
    · rw [hq] at h
      exact absurd h (List.not_mem_nil e)
    · exact Or.inr (Or.inl h)
    · exact absurd h.1 (by simp [hf])
  · intro _ _ e he
    rw [hq] at he
    exact absurd he (List.not_mem_nil e)
  · intro _ _ e he
    rw [hq] at he
    exact absurd he (List.not_mem_nil e)

theorem GInv_break_found (cfg : Config) (w : World) (s : St) (G : GInv cfg w s)
    (c : String) (l : Nat) (rest : List (String × Nat))
    (hf : s.finished = false) (hq : s.queue = (c, l) :: rest)
    (ht : s.targetFound = true) (hl : l > s.targetLevel) :
    GInv cfg w { s with queue := rest, finished := true } := by
  have hsub : ∀ x ∈ rest, x ∈ s.queue := by
    intro x hx
    rw [hq]
    exact List.mem_cons_of_mem _ hx
  have hpw := G.pairwise
  rw [hq] at hpw
  obtain ⟨hhd, hrest⟩ := List.pairwise_cons.1 hpw
  refine ⟨hrest, ?_, ?_, ?_, G.foundLevel, G.notFound, G.visitedProc,
    G.procNodup, ?_, ?_, ?_, ?_, G.procPath, G.mathsEq, G.pmapEq, ?_,
    G.tgtChar⟩
  · intro e he f hf'
    exact G.spread e (hsub e he) f (hsub f hf')
  · intro e he
    exact G.pos e (hsub e he)
  · intro e he f hf'
    exact G.procBelow e he f (hsub f hf')
  · intro e he
    rcases G.enqAcct e he with h | h | h
    · rw [hq] at h
      rcases List.mem_cons.1 h with h | h
    
      · subst h
        exact Or.inr (Or.inr ⟨rfl, Or.inr ⟨ht, hl⟩⟩)
      · exact Or.inl h
    · exact Or.inr (Or.inl h)
    · exact absurd h.1 (by simp [hf])
  · intro _ _ e he
    exact lt_of_lt_of_le hl (hhd e he)
  · intro _ htf
    simp [ht] at htf
  · intro e he
    exact G.queuePath e (hsub e he)
  · intro e he
    exact G.queueReach e (hsub e he)

theorem GInv_break_depth (cfg : Config) (w : World) (s : St) (G : GInv cfg w s)
    (c : String) (l : Nat) (rest : List (String × Nat))
    (hf : s.finished = false) (hq : s.queue = (c, l) :: rest)
    (ht : s.targetFound = false) (hl : l > cfg.endDepth) :
    GInv cfg w { s with queue := rest, finished := true } := by
  have hsub : ∀ x ∈ rest, x ∈ s.queue := by
    intro x hx
    rw [hq]
    exact List.mem_cons_of_mem _ hx
  have hpw := G.pairwise
  rw [hq] at hpw
  obtain ⟨hhd, hrest⟩ := List.pairwise_cons.1 hpw
  refine ⟨hrest, ?_, ?_, ?_, G.foundLevel, G.notFound, G.visitedProc,
    G.procNodup, ?_, ?_, ?_, ?_, G.procPath, G.mathsEq, G.pmapEq, ?_,
    G.tgtChar⟩
  · intro e he f hf'
    exact G.spread e (hsub e he) f (hsub f hf')
  · intro e he
    exact G.pos e (hsub e he)
  · intro e he f hf'
    exact G.procBelow e he f (hsub f hf')
  · intro e he
    rcases G.enqAcct e he with h | h | h
    · rw [hq] at h
      rcases List.mem_cons.1 h with h | h
      · subst h
        exact Or.inr (Or.inr ⟨rfl, Or.inl hl⟩)
      · exact Or.inl h
    · exact Or.inr (Or.inl h)
    · exact absurd h.1 (by simp [hf])
  · intro _ htf
    simp [ht] at htf
  · intro _ _ e he
    exact lt_of_lt_of_le hl (hhd e he)
  · intro e he
    exact G.queuePath e (hsub e he)
  · intro e he
    exact G.queueReach e (hsub e he)

theorem GInv_skip (cfg : Config) (w : World) (s : St) (G : GInv cfg w s)
    (c : String) (l : Nat) (rest : List (String × Nat))
    (hf : s.finished = false) (hq : s.queue = (c, l) :: rest)
    (hv : c ∈ s.visited) :
    GInv cfg w { s with queue := rest } := by
  have hsub : ∀ x ∈ rest, x ∈ s.queue := by
    intro x hx
    rw [hq]
    exact List.mem_cons_of_mem _ hx
  have hpw := G.pairwise
  rw [hq] at hpw
  obtain ⟨hhd, hrest⟩ := List.pairwise_cons.1 hpw
  refine ⟨hrest, ?_, ?_, ?_, G.foundLevel, G.notFound, G.visitedProc,
    G.procNodup, ?_, ?_, ?_, ?_, G.procPath, G.mathsEq, G.pmapEq, ?_,
    G.tgtChar⟩
  · intro e he f hf'
    exact G.spread e (hsub e he) f (hsub f hf')
  · intro e he
    exact G.pos e (hsub e he)
  · intro e he f hf'
    exact G.procBelow e he f (hsub f hf')
  · intro e he
    rcases G.enqAcct e he with h | h | h
    · rw [hq] at h
      rcases List.mem_cons.1 h with h | h
      · subst h
        exact Or.inr (Or.inl hv)
      · exact Or.inl h
    · exact Or.inr (Or.inl h)
    · exact absurd h.1 (by simp [hf])
  · intro hfin
    simp [hf] at hfin
  · intro hfin
    simp [hf] at hfin
  · intro e he
    exact G.queuePath e (hsub e he)
  · intro e he
    exact G.queueReach e (hsub e he)

theorem advOf_eq_of_some (w : World) (c : String) (doc : Doc)
    (hw : w c = some doc) : advOf w c = get_advisors doc := by
  unfold advOf
  rw [hw]

theorem advOf_eq_of_none (w : World) (c : String) (hw : w c = none) :
    advOf w c = [] := by
  unfold advOf
  rw [hw]

theorem endIdTruthy_true (cfg : Config) (t : String)
    (htt : cfg.endId = some t) (hne : t ≠ "") : endIdTruthy cfg = true := by
  simp [endIdTruthy, htt, hne]

theorem mem_reachSet_succ (w : World) (start : String) (n : Nat)
    (c a : String) (hc : c ∈ reachSet w start n) (ha : a ∈ advOf w c) :
    a ∈ reachSet w start (n + 1) := by
  show a ∈ reachSet w start n ∪ _
  exact Finset.mem_union.2
    (Or.inr (Finset.mem_biUnion.2 ⟨c, hc, List.mem_toFinset.2 ha⟩))

theorem reachSet_mono (w : World) (start : String) (n m : Nat) (h : n ≤ m) :
    reachSet w start n ⊆ reachSet w start m := by
  induction m with
  | zero =>
    have : n = 0 := Nat.le_zero.1 h
    subst this
    exact subset_rfl
  | succ m ih =>
    rcases Nat.eq_or_lt_of_le h with heq | hlt
    · subst heq
      exact subset_rfl
    · have hnm : n ≤ m := Nat.lt_succ_iff.1 hlt
      refine (ih hnm).trans ?_
      show reachSet w start m ⊆ reachSet w start m ∪ _
      exact Finset.subset_union_left

theorem pairwise_level_eq (xs : List (String × Nat)) (k : Nat)
    (h : ∀ e ∈ xs, e.2 = k) : xs.Pairwise (fun e f => e.2 ≤ f.2) := by
  induction xs with
  | nil => exact List.Pairwise.nil
  | cons x xs ih =>
    refine List.pairwise_cons.2 ⟨?_, ih (fun e he => h e (List.mem_cons_of_mem _ he))⟩
    intro f hf
    rw [h x (List.mem_cons_self x xs), h f (List.mem_cons_of_mem _ hf)]

theorem newsOf_level (vis adv : List String) (l : Nat) (e : String × Nat)
    (he : e ∈ newsOf vis adv l) : e.2 = l + 1 :=
  ((mem_newsOf vis adv l e).1 he).2.2

theorem visitedProc_extend (s : St) (c : String) (l : Nat)
    (hvp : ∀ v : String, v ∈ s.visited ↔ ∃ l', (v, l') ∈ s.procLog) :
    ∀ v : String, v ∈ c :: s.visited ↔ ∃ l', (v, l') ∈ s.procLog ++ [(c, l)] := by
  intro v
  constructor
  · intro h
    rcases List.mem_cons.1 h with h | h
    · subst h
      exact ⟨l, List.mem_append_right _ (List.mem_singleton.2 rfl)⟩
    · obtain ⟨l', hl'⟩ := (hvp v).1 h
      exact ⟨l', List.mem_append_left _ hl'⟩
  · intro ⟨l', hl'⟩
    rcases List.mem_append.1 hl' with h | h
    · exact List.mem_cons_of_mem _ ((hvp v).2 ⟨l', h⟩)
    · have : (v, l') = (c, l) := List.mem_singleton.1 h
      rw [Prod.mk.injEq] at this
      rw [this.1]
      exact List.mem_cons_self c s.visited

theorem procNodup_extend (s : St) (c : String) (l : Nat)
    (hvp : ∀ v : String, v ∈ s.visited ↔ ∃ l', (v, l') ∈ s.procLog)
    (hnd : (s.procLog.map Prod.fst).Nodup) (hv : c ∉ s.visited) :
    ((s.procLog ++ [(c, l)]).map Prod.fst).Nodup := by
  rw [List.map_append]
  refine List.Nodup.append hnd (List.nodup_singleton c) ?_
  intro x hx hx'
  have hxc : x = c := List.mem_singleton.1 hx'
  subst hxc
  obtain ⟨e, he, hfst⟩ := List.mem_map.1 hx
  exact hv ((hvp x).2 ⟨e.2, by rw [← hfst]; exact he⟩)

theorem GInv_fetch_fail (cfg : Config) (w : World) (s : St) (G : GInv cfg w s)
    (c : String) (l : Nat) (rest : List (String × Nat))
    (hf : s.finished = false) (hq : s.queue = (c, l) :: rest)
    (hb1 : ¬(s.targetFound = true ∧ l > s.targetLevel))
    (hb2 : ¬(s.targetFound = false ∧ l > cfg.endDepth))
    (hv : c ∉ s.visited) (hw : w c = none) :
    GInv cfg w
      { s with queue := rest, visited := c :: s.visited
               procLog := s.procLog ++ [(c, l)] } := by
  have hsub : ∀ x ∈ rest, x ∈ s.queue := by
    intro x hx
    rw [hq]
    exact List.mem_cons_of_mem _ hx
  have hhead : (c, l) ∈ s.queue := by
    rw [hq]
    exact List.mem_cons_self _ _
  have hpw := G.pairwise
  rw [hq] at hpw
  obtain ⟨hhd, hrest⟩ := List.pairwise_cons.1 hpw
  refine ⟨hrest, ?_, ?_, ?_, ?_, ?_, visitedProc_extend s c l G.visitedProc,
    procNodup_extend s c l G.visitedProc G.procNodup hv, ?_, ?_, ?_, ?_, ?_,
    ?_, ?_, ?_, ?_⟩
  · intro e he f hf'
    exact G.spread e (hsub e he) f (hsub f hf')
  · intro e he
    exact G.pos e (hsub e he)
  · intro e he f hf'
    rcases List.mem_append.1 he with h | h
    · exact G.procBelow e h f (hsub f hf')
    · have : e = (c, l) := List.mem_singleton.1 h
      subst this
      exact hhd f hf'
  · intro htf
    obtain ⟨h1, h2⟩ := G.foundLevel htf
    refine ⟨h1, ?_⟩
    intro e he
    rcases List.mem_append.1 he with h | h
    · exact h2 e h
    · have : e = (c, l) := List.mem_singleton.1 h
      subst this
      exact Nat.le_of_not_lt (fun hgt => hb1 ⟨htf, hgt⟩)
  · intro htf e he
    rcases List.mem_append.1 he with h | h
    · exact G.notFound htf e h
    · have : e = (c, l) := List.mem_singleton.1 h
      subst this
      exact Nat.le_of_not_lt (fun hgt => hb2 ⟨htf, hgt⟩)
  · intro e he
    rcases G.enqAcct e he with h | h | h
    · rw [hq] at h
      rcases List.mem_cons.1 h with h | h
      · subst h
        exact Or.inr (Or.inl (List.mem_cons_self _ _))
      · exact Or.inl h
    · exact Or.inr (Or.inl (List.mem_cons_of_mem _ h))
    · exact absurd h.1 (by simp [hf])
  · intro hfin
    simp [hf] at hfin
  · intro hfin
    simp [hf] at hfin
  · intro e he
    exact G.queuePath e (hsub e he)
  · intro e he
    rcases List.mem_append.1 he with h | h
    · exact G.procPath e h
    · have : e = (c, l) := List.mem_singleton.1 h
      subst this
      exact G.queuePath (c, l) hhead
  · show s.mathematicians = procRecords w (s.procLog ++ [(c, l)])
    rw [procRecords_append, hw]
    simpa using G.mathsEq
  · intro a
    show s.parentMap a = parentList w (s.procLog ++ [(c, l)]) a
    rw [parentList_append, advOf_eq_of_none w c hw]
    simpa using G.pmapEq a
  · intro e he
    exact G.queueReach e (hsub e he)
  · intro t htt hne
    refine ⟨?_, ?_⟩
    · intro htf
      obtain ⟨h1, h2⟩ := (G.tgtChar t htt hne).1 htf
      exact ⟨List.mem_append_left _ h1, h2⟩
    · intro htf l' hmem
      rcases List.mem_append.1 hmem with h | h
      · exact (G.tgtChar t htt hne).2 htf l' h
      · have heq : (t, l') = (c, l) := List.mem_singleton.1 h
        rw [Prod.mk.injEq] at heq
        intro ⟨doc', hd', _⟩
        rw [heq.1, hw] at hd'
        exact Option.noConfusion hd'

theorem GInv_parse_fail (cfg : Config) (w : World) (s : St) (G : GInv cfg w s)
    (c : String) (l : Nat) (rest : List (String × Nat)) (doc : Doc)
    (hf : s.finished = false) (hq : s.queue = (c, l) :: rest)
    (hb1 : ¬(s.targetFound = true ∧ l > s.targetLevel))
    (hb2 : ¬(s.targetFound = false ∧ l > cfg.endDepth))
    (hv : c ∉ s.visited) (hw : w c = some doc)
    (hm : parse_mathematician doc l (get_advisors doc) = none) :
    GInv cfg w
      { s with queue := rest, visited := c :: s.visited
               procLog := s.procLog ++ [(c, l)]
               parentMap := recordEdges s.parentMap (get_advisors doc) c } := by
  have hsub : ∀ x ∈ rest, x ∈ s.queue := by
    intro x hx
    rw [hq]
    exact List.mem_cons_of_mem _ hx
  have hhead : (c, l) ∈ s.queue := by
    rw [hq]
    exact List.mem_cons_self _ _
  have hpw := G.pairwise
  rw [hq] at hpw
  obtain ⟨hhd, hrest⟩ := List.pairwise_cons.1 hpw
  refine ⟨hrest, ?_, ?_, ?_, ?_, ?_, visitedProc_extend s c l G.visitedProc,
    procNodup_extend s c l G.visitedProc G.procNodup hv, ?_, ?_, ?_, ?_, ?_,
    ?_, ?_, ?_, ?_⟩
  · intro e he f hf'
    exact G.spread e (hsub e he) f (hsub f hf')
  · intro e he
    exact G.pos e (hsub e he)
  · intro e he f hf'
    rcases List.mem_append.1 he with h | h
    · exact G.procBelow e h f (hsub f hf')
    · have : e = (c, l) := List.mem_singleton.1 h
      subst this
      exact hhd f hf'
  · intro htf
    obtain ⟨h1, h2⟩ := G.foundLevel htf
    refine ⟨h1, ?_⟩
    intro e he
    rcases List.mem_append.1 he with h | h
    · exact h2 e h
    · have : e = (c, l) := List.mem_singleton.1 h
      subst this
      exact Nat.le_of_not_lt (fun hgt => hb1 ⟨htf, hgt⟩)
  · intro htf e he
    rcases List.mem_append.1 he with h | h
    · exact G.notFound htf e h
    · have : e = (c, l) := List.mem_singleton.1 h
      subst this
      exact Nat.le_of_not_lt (fun hgt => hb2 ⟨htf, hgt⟩)
  · intro e he
    rcases G.enqAcct e he with h | h | h
    · rw [hq] at h
      rcases List.mem_cons.1 h with h | h
      · subst h
        exact Or.inr (Or.inl (List.mem_cons_self _ _))
      · exact Or.inl h
    · exact Or.inr (Or.inl (List.mem_cons_of_mem _ h))
    · exact absurd h.1 (by simp [hf])
  · intro hfin
    simp [hf] at hfin
  · intro hfin
    simp [hf] at hfin
  · intro e he
    exact G.queuePath e (hsub e he)
  · intro e he
    rcases List.mem_append.1 he with h | h
    · exact G.procPath e h
    · have : e = (c, l) := List.mem_singleton.1 h
      subst this
      exact G.queuePath (c, l) hhead
  · show s.mathematicians = procRecords w (s.procLog ++ [(c, l)])
    rw [procRecords_append, hw]
    simp only [hm]
    simpa using G.mathsEq
  · intro a
    show recordEdges s.parentMap (get_advisors doc) c a =
      parentList w (s.procLog ++ [(c, l)]) a
    rw [parentList_append, advOf_eq_of_some w c doc hw, recordEdges_apply,
      G.pmapEq a]
  · intro e he
    exact G.queueReach e (hsub e he)
  · intro t htt hne
    refine ⟨?_, ?_⟩
    · intro htf
      obtain ⟨h1, h2⟩ := (G.tgtChar t htt hne).1 htf
      exact ⟨List.mem_append_left _ h1, h2⟩
    · intro htf l' hmem
      rcases List.mem_append.1 hmem with h | h
      · exact (G.tgtChar t htt hne).2 htf l' h
      · have heq : (t, l') = (c, l) := List.mem_singleton.1 h
        rw [Prod.mk.injEq] at heq
        intro ⟨doc', hd', m', hm'⟩
        rw [heq.1, hw] at hd'
        have hdd : doc = doc' := Option.some.inj hd'
        rw [← hdd, heq.2] at hm'
        rw [hm] at hm'
        exact Option.noConfusion hm'

theorem GInv_process_miss (cfg : Config) (w : World) (s : St) (G : GInv cfg w s)
    (c : String) (l : Nat) (rest : List (String × Nat)) (doc : Doc)
    (m : Mathematician)
    (hf : s.finished = false) (hq : s.queue = (c, l) :: rest)
    (hb1 : ¬(s.targetFound = true ∧ l > s.targetLevel))
    (hb2 : ¬(s.targetFound = false ∧ l > cfg.endDepth))
    (hv : c ∉ s.visited) (hw : w c = some doc)
    (hm : parse_mathematician doc l (get_advisors doc) = some m)
    (hmiss : ¬(endIdTruthy cfg = true ∧ cfg.endId = some c ∧ s.targetFound = false)) :
    GInv cfg w
      { s with queue := rest ++ newsOf (c :: s.visited) (get_advisors doc) l
               visited := c :: s.visited
               mathematicians := s.mathematicians ++ [m]
               parentMap := recordEdges s.parentMap (get_advisors doc) c
               procLog := s.procLog ++ [(c, l)]
               enqLog := s.enqLog ++ newsOf (c :: s.visited) (get_advisors doc) l } := by
  have hsub : ∀ x ∈ rest, x ∈ s.queue := by
    intro x hx
    rw [hq]
    exact List.mem_cons_of_mem _ hx
  have hhead : (c, l) ∈ s.queue := by
    rw [hq]
    exact List.mem_cons_self _ _
  have hpw := G.pairwise
  rw [hq] at hpw
  obtain ⟨hhd, hrest⟩ := List.pairwise_cons.1 hpw
  have hl1 : 1 ≤ l := G.pos (c, l) hhead
  have hnl : ∀ e ∈ newsOf (c :: s.visited) (get_advisors doc) l, e.2 = l + 1 :=
    fun e he => newsOf_level _ _ _ e he
  have hpath_c : HasPath (advOf w) cfg.startId c (l - 1) := G.queuePath (c, l) hhead
  have hreach_c : c ∈ reachSet w cfg.startId (l - 1) := G.queueReach (c, l) hhead
  have hl11 : l - 1 + 1 = l := by omega
  refine ⟨?_, ?_, ?_, ?_, ?_, ?_, visitedProc_extend s c l G.visitedProc,
    procNodup_extend s c l G.visitedProc G.procNodup hv, ?_, ?_, ?_, ?_, ?_,
    ?_, ?_, ?_, ?_⟩
  · refine List.pairwise_append.2 ⟨hrest, pairwise_level_eq _ (l + 1) hnl, ?_⟩
    intro a ha b hb
    have h1 : a.2 ≤ l + 1 := G.spread a (hsub a ha) (c, l) hhead
    rw [hnl b hb]
    exact h1
  · intro e he f hf'
    rcases List.mem_append.1 he with he' | he' <;>
      rcases List.mem_append.1 hf' with hf'' | hf''
    · exact G.spread e (hsub e he') f (hsub f hf'')
    · have h1 : e.2 ≤ l + 1 := G.spread e (hsub e he') (c, l) hhead
      have h2 := hnl f hf''
      omega
    · have h1 := hnl e he'
      have h2 : l ≤ f.2 := hhd f hf''
      omega
    · have h1 := hnl e he'
      have h2 := hnl f hf''
      omega
  · intro e he
    rcases List.mem_append.1 he with he' | he'
    · exact G.pos e (hsub e he')
    · have := hnl e he'
      omega
  · intro e he f hf'
    rcases List.mem_append.1 he with he' | he'
    · rcases List.mem_append.1 hf' with hf'' | hf''
      · exact G.procBelow e he' f (hsub f hf'')
      · have h1 : e.2 ≤ l := G.procBelow e he' (c, l) hhead
        have h2 := hnl f hf''
        omega
    · have heq : e = (c, l) := List.mem_singleton.1 he'
      subst heq
      rcases List.mem_append.1 hf' with hf'' | hf''
      · exact hhd f hf''
      · have := hnl f hf''
        omega
  · intro htf
    obtain ⟨h1, h2⟩ := G.foundLevel htf
    refine ⟨h1, ?_⟩
    intro e he
    rcases List.mem_append.1 he with h | h
    · exact h2 e h
    · have : e = (c, l) := List.mem_singleton.1 h
      subst this
      exact Nat.le_of_not_lt (fun hgt => hb1 ⟨htf, hgt⟩)
  · intro htf e he
    rcases List.mem_append.1 he with h | h
    · exact G.notFound htf e h
    · have : e = (c, l) := List.mem_singleton.1 h
      subst this
      exact Nat.le_of_not_lt (fun hgt => hb2 ⟨htf, hgt⟩)
  · intro e he
    rcases List.mem_append.1 he with hold | hnew
    · rcases G.enqAcct e hold with h | h | h
      · rw [hq] at h
        rcases List.mem_cons.1 h with h | h
        · subst h
          exact Or.inr (Or.inl (List.mem_cons_self _ _))
        · exact Or.inl (List.mem_append_left _ h)
      · exact Or.inr (Or.inl (List.mem_cons_of_mem _ h))
      · exact absurd h.1 (by simp [hf])
    · exact Or.inl (List.mem_append_right _ hnew)
  · intro hfin
    simp [hf] at hfin
  · intro hfin
    simp [hf] at hfin
  · intro e he
    rcases List.mem_append.1 he with he' | he'
    · exact G.queuePath e (hsub e he')
    · obtain ⟨ha, _, hlv⟩ := (mem_newsOf _ _ _ e).1 he'
      rw [hlv]
      have : HasPath (advOf w) cfg.startId e.1 (l - 1 + 1) :=
        HasPath.tail hpath_c (by rw [advOf_eq_of_some w c doc hw]; exact ha)
      rw [hl11] at this
      simpa using this
  · intro e he
    rcases List.mem_append.1 he with h | h
    · exact G.procPath e h
    · have : e = (c, l) := List.mem_singleton.1 h
      subst this
      exact hpath_c
  · show s.mathematicians ++ [m] = procRecords w (s.procLog ++ [(c, l)])
    rw [procRecords_append, hw]
    simp only [hm, Option.toList_some]
    rw [G.mathsEq]
  · intro a
    show recordEdges s.parentMap (get_advisors doc) c a =
      parentList w (s.procLog ++ [(c, l)]) a
    rw [parentList_append, advOf_eq_of_some w c doc hw, recordEdges_apply,
      G.pmapEq a]
  · intro e he
    rcases List.mem_append.1 he with he' | he'
    · exact G.queueReach e (hsub e he')
    · obtain ⟨ha, _, hlv⟩ := (mem_newsOf _ _ _ e).1 he'
      rw [hlv]
      have : e.1 ∈ reachSet w cfg.startId (l - 1 + 1) :=
        mem_reachSet_succ w cfg.startId (l - 1) c e.1 hreach_c
          (by rw [advOf_eq_of_some w c doc hw]; exact ha)
      rw [hl11] at this
      simpa using this
  · intro t htt hne
    refine ⟨?_, ?_⟩
    · intro htf
      obtain ⟨h1, h2⟩ := (G.tgtChar t htt hne).1 htf
      exact ⟨List.mem_append_left _ h1, h2⟩
    · intro htf l' hmem
      rcases List.mem_append.1 hmem with h | h
      · exact (G.tgtChar t htt hne).2 htf l' h
      · have heq : (t, l') = (c, l) := List.mem_singleton.1 h
        rw [Prod.mk.injEq] at heq
        exfalso
        refine hmiss ⟨endIdTruthy_true cfg t htt hne, ?_, htf⟩
        rw [← heq.1]
        exact htt

theorem GInv_process_hit (cfg : Config) (w : World) (s : St) (G : GInv cfg w s)
    (c : String) (l : Nat) (rest : List (String × Nat)) (doc : Doc)
    (m : Mathematician)
    (hf : s.finished = false) (hq : s.queue = (c, l) :: rest)
    (hb1 : ¬(s.targetFound = true ∧ l > s.targetLevel))
    (hb2 : ¬(s.targetFound = false ∧ l > cfg.endDepth))
    (hv : c ∉ s.visited) (hw : w c = some doc)
    (hm : parse_mathematician doc l (get_advisors doc) = some m)
    (hhit : endIdTruthy cfg = true ∧ cfg.endId = some c ∧ s.targetFound = false) :
    GInv cfg w
      { s with queue := rest ++ newsOf (c :: s.visited) (get_advisors doc) l
               visited := c :: s.visited
               mathematicians := s.mathematicians ++ [m]
               parentMap := recordEdges s.parentMap (get_advisors doc) c
               targetFound := true
               targetLevel := l
               procLog := s.procLog ++ [(c, l)]
               enqLog := s.enqLog ++ newsOf (c :: s.visited) (get_advisors doc) l } := by
  have hsub : ∀ x ∈ rest, x ∈ s.queue := by
    intro x hx
    rw [hq]
    exact List.mem_cons_of_mem _ hx
  have hhead : (c, l) ∈ s.queue := by
    rw [hq]
    exact List.mem_cons_self _ _
  have hpw := G.pairwise
  rw [hq] at hpw
  obtain ⟨hhd, hrest⟩ := List.pairwise_cons.1 hpw
  have hl1 : 1 ≤ l := G.pos (c, l) hhead
  have hnl : ∀ e ∈ newsOf (c :: s.visited) (get_advisors doc) l, e.2 = l + 1 :=
    fun e he => newsOf_level _ _ _ e he
  have hpath_c : HasPath (advOf w) cfg.startId c (l - 1) := G.queuePath (c, l) hhead
  have hreach_c : c ∈ reachSet w cfg.startId (l - 1) := G.queueReach (c, l) hhead
  have hl11 : l - 1 + 1 = l := by omega
  refine ⟨?_, ?_, ?_, ?_, ?_, ?_, visitedProc_extend s c l G.visitedProc,
    procNodup_extend s c l G.visitedProc G.procNodup hv, ?_, ?_, ?_, ?_, ?_,
    ?_, ?_, ?_, ?_⟩
  · refine List.pairwise_append.2 ⟨hrest, pairwise_level_eq _ (l + 1) hnl, ?_⟩
    intro a ha b hb
    have h1 : a.2 ≤ l + 1 := G.spread a (hsub a ha) (c, l) hhead
    rw [hnl b hb]
    exact h1
  · intro e he f hf'
    rcases List.mem_append.1 he with he' | he' <;>
      rcases List.mem_append.1 hf' with hf'' | hf''
    · exact G.spread e (hsub e he') f (hsub f hf'')
    · have h1 : e.2 ≤ l + 1 := G.spread e (hsub e he') (c, l) hhead
      have h2 := hnl f hf''
      omega
    · have h1 := hnl e he'
      have h2 : l ≤ f.2 := hhd f hf''
      omega
    · have h1 := hnl e he'
      have h2 := hnl f hf''
      omega
  · intro e he
    rcases List.mem_append.1 he with he' | he'
    · exact G.pos e (hsub e he')
    · have := hnl e he'
      omega
  · intro e he f hf'
    rcases List.mem_append.1 he with he' | he'
    · rcases List.mem_append.1 hf' with hf'' | hf''
      · exact G.procBelow e he' f (hsub f hf'')
      · have h1 : e.2 ≤ l := G.procBelow e he' (c, l) hhead
        have h2 := hnl f hf''
        omega
    · have heq : e = (c, l) := List.mem_singleton.1 he'
      subst heq
      rcases List.mem_append.1 hf' with hf'' | hf''
      · exact hhd f hf''
      · have := hnl f hf''
        omega
  · intro _
    refine ⟨Nat.le_of_not_lt (fun hgt => hb2 ⟨hhit.2.2, hgt⟩), ?_⟩
    intro e he
    rcases List.mem_append.1 he with h | h
    · exact G.procBelow e h (c, l) hhead
    · have : e = (c, l) := List.mem_singleton.1 h
      subst this
      exact Nat.le_refl l
  · intro htf
    simp at htf
  · intro e he
    rcases List.mem_append.1 he with hold | hnew
    · rcases G.enqAcct e hold with h | h | h
      · rw [hq] at h
        rcases List.mem_cons.1 h with h | h
        · subst h
          exact Or.inr (Or.inl (List.mem_cons_self _ _))
        · exact Or.inl (List.mem_append_left _ h)
      · exact Or.inr (Or.inl (List.mem_cons_of_mem _ h))
      · exact absurd h.1 (by simp [hf])
    · exact Or.inl (List.mem_append_right _ hnew)
  · intro hfin
    simp [hf] at hfin
  · intro hfin
    simp [hf] at hfin
  · intro e he
    rcases List.mem_append.1 he with he' | he'
    · exact G.queuePath e (hsub e he')
    · obtain ⟨ha, _, hlv⟩ := (mem_newsOf _ _ _ e).1 he'
      rw [hlv]
      have : HasPath (advOf w) cfg.startId e.1 (l - 1 + 1) :=
        HasPath.tail hpath_c (by rw [advOf_eq_of_some w c doc hw]; exact ha)
      rw [hl11] at this
      simpa using this
  · intro e he
    rcases List.mem_append.1 he with h | h
    · exact G.procPath e h
    · have : e = (c, l) := List.mem_singleton.1 h
      subst this
      exact hpath_c
  · show s.mathematicians ++ [m] = procRecords w (s.procLog ++ [(c, l)])
    rw [procRecords_append, hw]
    simp only [hm, Option.toList_some]
    rw [G.mathsEq]
  · intro a
    show recordEdges s.parentMap (get_advisors doc) c a =
      parentList w (s.procLog ++ [(c, l)]) a
    rw [parentList_append, advOf_eq_of_some w c doc hw, recordEdges_apply,
      G.pmapEq a]
  · intro e he
    rcases List.mem_append.1 he with he' | he'
    · exact G.queueReach e (hsub e he')
    · obtain ⟨ha, _, hlv⟩ := (mem_newsOf _ _ _ e).1 he'
      rw [hlv]
      have : e.1 ∈ reachSet w cfg.startId (l - 1 + 1) :=
        mem_reachSet_succ w cfg.startId (l - 1) c e.1 hreach_c
          (by rw [advOf_eq_of_some w c doc hw]; exact ha)
      rw [hl11] at this
      simpa using this
  · intro t htt hne
    have h1 := hhit.2.1
    rw [htt] at h1
    have htc : t = c := Option.some.inj h1
    refine ⟨?_, ?_⟩
    · intro _
      subst htc
      exact ⟨List.mem_append_right _ (List.mem_singleton.2 rfl),
        ⟨doc, hw, m, hm⟩⟩
    · intro htf
      simp at htf

theorem GInv_step (cfg : Config) (w : World) (s : St) (G : GInv cfg w s) :
    GInv cfg w (step cfg w s) := by
  refine step_cases cfg w s (GInv cfg w) (fun _ => G)
    (fun hf hq => GInv_nil cfg w s G hf hq)
    (fun c l rest hf hq ht hl => GInv_break_found cfg w s G c l rest hf hq ht hl)
    (fun c l rest hf hq ht hl => GInv_break_depth cfg w s G c l rest hf hq ht hl)
    (fun c l rest hf hq _ _ hv => GInv_skip cfg w s G c l rest hf hq hv)
    (fun c l rest hf hq hb1 hb2 hv hw =>
      GInv_fetch_fail cfg w s G c l rest hf hq hb1 hb2 hv hw)
    (fun c l rest doc hf hq hb1 hb2 hv hw hm =>
      GInv_parse_fail cfg w s G c l rest doc hf hq hb1 hb2 hv hw hm)
    (fun c l rest doc m hf hq hb1 hb2 hv hw hm hh =>
      GInv_process_hit cfg w s G c l rest doc m hf hq hb1 hb2 hv hw hm hh)
    (fun c l rest doc m hf hq hb1 hb2 hv hw hm hh =>
      GInv_process_miss cfg w s G c l rest doc m hf hq hb1 hb2 hv hw hm hh)

theorem GInv_scrapeLoop (cfg : Config) (w : World) :
    ∀ (n : Nat) (s : St), GInv cfg w s → GInv cfg w (scrapeLoop cfg w n s) := by
  intro n
  induction n with
  | zero => intro s G; exact G
  | succ n ih =>
    intro s G
    exact ih (step cfg w s) (GInv_step cfg w s G)

theorem GInv_init (cfg : Config) (w : World) : GInv cfg w (initSt cfg) := by
  refine ⟨?_, ?_, ?_, ?_, ?_, ?_, ?_, ?_, ?_, ?_, ?_, ?_, ?_, ?_, ?_, ?_, ?_⟩
  · exact List.pairwise_singleton _ _
  · intro e he f hf
    have he' : e = (cfg.startId, 1) := List.mem_singleton.1 he
    have hf' : f = (cfg.startId, 1) := List.mem_singleton.1 hf
    subst he'
    subst hf'
    omega
  · intro e he
    have he' : e = (cfg.startId, 1) := List.mem_singleton.1 he
    subst he'
    exact Nat.le_refl 1
  · intro e he
    exact absurd he (List.not_mem_nil e)
  · intro h
    simp [initSt] at h
  · intro _ e he
    exact absurd he (List.not_mem_nil e)
  · intro v
    constructor
    · intro h
      exact absurd h (List.not_mem_nil v)
    · intro ⟨l, hl⟩
      exact absurd hl (List.not_mem_nil (v, l))
  · exact List.nodup_nil
  · intro e he
    exact Or.inl he
  · intro h
    simp [initSt] at h
  · intro h
    simp [initSt] at h
  · intro e he
    have he' : e = (cfg.startId, 1) := List.mem_singleton.1 he
    subst he'
    exact HasPath.refl
  · intro e he
    exact absurd he (List.not_mem_nil e)
  · rfl
  · intro a
    rfl
  · intro e he
    have he' : e = (cfg.startId, 1) := List.mem_singleton.1 he
    subst he'
    exact Finset.mem_singleton.2 rfl
  · intro t _ _
    refine ⟨?_, ?_⟩
    · intro h
      simp [initSt] at h
    · intro _ l hl
      exact absurd hl (List.not_mem_nil (t, l))

theorem GInv_scrape (cfg : Config) (w : World) (n : Nat) :
    GInv cfg w (scrape cfg w n) :=
  GInv_scrapeLoop cfg w n (initSt cfg) (GInv_init cfg w)

/-! ### Termination of the crawl loop -/

theorem newsOf_length_le (vis adv : List String) (l : Nat) :
    (newsOf vis adv l).length ≤ adv.length := by
  unfold newsOf
  rw [List.length_map]
  exact List.length_filter_le _ _

theorem crawlMeasure_process_aux (cfg : Config) (w : World) (s s' : St)
    (G : GInv cfg w s) (c : String) (l : Nat) (rest : List (String × Nat))
    (doc : Doc) (hq : s.queue = (c, l) :: rest)
    (hb1 : ¬(s.targetFound = true ∧ l > s.targetLevel))
    (hb2 : ¬(s.targetFound = false ∧ l > cfg.endDepth))
    (hv : c ∉ s.visited) (hw : w c = some doc)
    (hq' : s'.queue = rest ++ newsOf (c :: s.visited) (get_advisors doc) l)
    (hv' : s'.visited = c :: s.visited) :
    crawlMeasure cfg w s' < crawlMeasure cfg w s := by
  have hhead : (c, l) ∈ s.queue := by
    rw [hq]
    exact List.mem_cons_self _ _
  have hld : l ≤ cfg.endDepth := by
    cases htf : s.targetFound with
    | true =>
      have h1 : l ≤ s.targetLevel := Nat.le_of_not_lt (fun hgt => hb1 ⟨htf, hgt⟩)
      exact h1.trans (G.foundLevel htf).1
    | false => exact Nat.le_of_not_lt (fun hgt => hb2 ⟨htf, hgt⟩)
  have hcA : c ∈ reachSet w cfg.startId cfg.endDepth :=
    reachSet_mono w cfg.startId (l - 1) cfg.endDepth (by omega)
      (G.queueReach (c, l) hhead)
  have hcS : c ∈ (reachSet w cfg.startId cfg.endDepth) \ s.visited.toFinset :=
    Finset.mem_sdiff.2 ⟨hcA, fun hx => hv (List.mem_toFinset.1 hx)⟩
  have hSeq : (reachSet w cfg.startId cfg.endDepth) \ insert c s.visited.toFinset =
      ((reachSet w cfg.startId cfg.endDepth) \ s.visited.toFinset).erase c := by
    ext x
    simp only [Finset.mem_sdiff, Finset.mem_insert, Finset.mem_erase]
    tauto
  have hkey : ((reachSet w cfg.startId cfg.endDepth) \
        insert c s.visited.toFinset).sum (fun v => (advOf w v).length) +
        (advOf w c).length =
      ((reachSet w cfg.startId cfg.endDepth) \ s.visited.toFinset).sum
        (fun v => (advOf w v).length) := by
    rw [hSeq]
    exact Finset.sum_erase_add _ _ hcS
  have hnle : (newsOf (c :: s.visited) (get_advisors doc) l).length ≤
      (advOf w c).length := by
    rw [advOf_eq_of_some w c doc hw]
    exact newsOf_length_le _ _ _
  unfold crawlMeasure
  rw [hq', hv', hq, List.toFinset_cons, List.length_append, List.length_cons]
  omega

theorem crawlMeasure_decrease (cfg : Config) (w : World) (s : St)
    (G : GInv cfg w s) (hf : s.finished = false) :
    (step cfg w s).finished = true ∨
      crawlMeasure cfg w (step cfg w s) < crawlMeasure cfg w s := by
  refine step_cases cfg w s (fun s' => s'.finished = true ∨
      crawlMeasure cfg w s' < crawlMeasure cfg w s)
    (fun hft => absurd hft (by simp [hf])) (fun _ _ => Or.inl rfl)
    (fun _ _ _ _ _ _ _ => Or.inl rfl) (fun _ _ _ _ _ _ _ => Or.inl rfl)
    ?_ ?_ ?_ ?_ ?_
  · -- skip: one queue entry consumed, nothing added
    intro c l rest _ hq _ _ _
    right
    unfold crawlMeasure
    rw [hq]
    simp only [List.length_cons]
    omega
  · -- fetch failure: queue entry consumed, visited grows
    intro c l rest _ hq _ _ _ _
    right
    unfold crawlMeasure
    rw [hq]
    simp only [List.length_cons, List.toFinset_cons]
    have hsum : ((reachSet w cfg.startId cfg.endDepth) \
          insert c s.visited.toFinset).sum (fun v => (advOf w v).length) ≤
        ((reachSet w cfg.startId cfg.endDepth) \
          s.visited.toFinset).sum (fun v => (advOf w v).length) := by
      refine Finset.sum_le_sum_of_subset ?_
      exact Finset.sdiff_subset_sdiff (Finset.Subset.refl _)
        (Finset.subset_insert _ _)
    omega
  · -- parse failure: queue entry consumed, visited grows
    intro c l rest _ _ hq _ _ _ _ _
    right
    unfold crawlMeasure
    rw [hq]
    simp only [List.length_cons, List.toFinset_cons]
    have hsum : ((reachSet w cfg.startId cfg.endDepth) \
          insert c s.visited.toFinset).sum (fun v => (advOf w v).length) ≤
        ((reachSet w cfg.startId cfg.endDepth) \
          s.visited.toFinset).sum (fun v => (advOf w v).length) := by
      refine Finset.sum_le_sum_of_subset ?_
      exact Finset.sdiff_subset_sdiff (Finset.Subset.refl _)
        (Finset.subset_insert _ _)
    omega
  · -- processing with the target hit
    intro c l rest doc m hfs hq hb1 hb2 hv hw hm _
    right
    exact crawlMeasure_process_aux cfg w s _ G c l rest doc hq hb1 hb2 hv hw rfl rfl
  · -- processing without the target hit
    intro c l rest doc m hfs hq hb1 hb2 hv hw hm _
    right
    exact crawlMeasure_process_aux cfg w s _ G c l rest doc hq hb1 hb2 hv hw rfl rfl

theorem loop_terminates_aux (cfg : Config) (w : World) :
    ∀ (μ : Nat) (s : St), GInv cfg w s → crawlMeasure cfg w s ≤ μ →
      ∃ n, (scrapeLoop cfg w n s).finished = true := by
  intro μ
  induction μ with
  | zero =>
    intro s G hμ
    by_cases hf : s.finished = true
    · exact ⟨0, hf⟩
    · have hf' : s.finished = false := by
        cases h : s.finished
        · rfl
        · exact absurd h hf
      rcases crawlMeasure_decrease cfg w s G hf' with h | h
      · exact ⟨1, h⟩
      · omega
  | succ μ ih =>
    intro s G hμ
    by_cases hf : s.finished = true
    · exact ⟨0, hf⟩
    · have hf' : s.finished = false := by
        cases h : s.finished
        · rfl
        · exact absurd h hf
      rcases crawlMeasure_decrease cfg w s G hf' with h | h
      · exact ⟨1, h⟩
      · obtain ⟨n, hn⟩ := ih (step cfg w s) (GInv_step cfg w s G) (by omega)
        exact ⟨n + 1, hn⟩

/-- Every crawl run halts: some fuel reaches a state where the loop has
exited (queue exhausted or one of the two stop rules fired). -/
theorem scrape_terminates (cfg : Config) (w : World) :
    ∃ n, (scrape cfg w n).finished = true :=
  loop_terminates_aux cfg w (crawlMeasure cfg w (initSt cfg)) (initSt cfg)
    (GInv_init cfg w) (Nat.le_refl _)

/-! ### Record identifiers and the advisor-index lists -/

theorem parse_mathematician_fields (d : Doc) (l : Nat) (a : List String)
    (m : Mathematician) (h : parse_mathematician d l a = some m) :
    ∃ pl, d.profileLinks.head? = some pl ∧ m.id = pl.1 ∧ m.level = l ∧
      m.descended_from = a := by
  unfold parse_mathematician at h
  cases hh2 : d.h2Text <;> rw [hh2] at h
  · exact Option.noConfusion h
  · cases hpl : d.profileLinks.head? <;> rw [hpl] at h
    · exact Option.noConfusion h
    · rename_i h2 pl
      cases hdet : (match d.degreeInfo with
                    | none => some (⟨"", "", "", ""⟩ : Details)
                    | some info => detailsOf info) <;> rw [hdet] at h
      · exact Option.noConfusion h
      · cases Option.some.inj h
        exact ⟨pl, rfl, rfl, rfl, rfl⟩

theorem procRecords_ids_sublist (w : World)
    (hself : ∀ v doc, w v = some doc →
      ∀ pl, doc.profileLinks.head? = some pl → pl.1 = v) :
    ∀ log : List (String × Nat),
      ((procRecords w log).map Mathematician.id).Sublist (log.map Prod.fst) := by
  intro log
  induction log with
  | nil => exact List.Sublist.refl []
  | cons e rest ih =>
    show ((List.filterMap _ (e :: rest)).map Mathematician.id).Sublist _
    rw [List.filterMap_cons]
    cases hw : w e.1 with
    | none =>
      simp only [hw]
      exact List.Sublist.cons _ ih
    | some doc =>
      simp only [hw]
      cases hm : parse_mathematician doc e.2 (get_advisors doc) with
      | none => exact List.Sublist.cons _ ih
      | some m =>
        obtain ⟨pl, hpl, hid, _, _⟩ := parse_mathematician_fields _ _ _ _ hm
        have : m.id = e.1 := by rw [hid, hself e.1 doc hw pl hpl]
        simp only [List.map_cons, this]
        exact List.Sublist.cons₂ _ ih

theorem mem_parentList (w : World) (a : String) :
    ∀ (log : List (String × Nat)) (x : String),
      x ∈ parentList w log a → x ∈ log.map Prod.fst := by
  intro log
  induction log with
  | nil => intro x hx; exact absurd hx (List.not_mem_nil x)
  | cons e rest ih =>
    intro x hx
    unfold parentList at hx
    rw [List.map_cons, List.flatten_cons] at hx
    rcases List.mem_append.1 hx with h | h
    · have := List.eq_of_mem_replicate h
      rw [List.map_cons, this]
      exact List.mem_cons_self _ _
    · exact List.mem_cons_of_mem _ (ih x h)

theorem parentList_nodup (w : World) (a : String)
    (hcnt : ∀ v, (advOf w v).count a ≤ 1) :
    ∀ log : List (String × Nat),
      (log.map Prod.fst).Nodup → (parentList w log a).Nodup := by
  intro log
  induction log with
  | nil => intro _; exact List.nodup_nil
  | cons e rest ih =>
    intro hnd
    rw [List.map_cons, List.nodup_cons] at hnd
    unfold parentList
    rw [List.map_cons, List.flatten_cons]
    refine List.Nodup.append ?_ (ih hnd.2) ?_
    · rcases Nat.le_one_iff_eq_zero_or_eq_one.1 (hcnt e.1) with h | h
      · rw [h]
        exact List.nodup_nil
      · rw [h]
        exact List.nodup_singleton _
    · intro x hx hx'
      have hxe : x = e.1 := List.eq_of_mem_replicate hx
      subst hxe
      exact hnd.1 (mem_parentList w a rest e.1 hx')

/-- C2 (amended): with a configured (truthy) target identifier `t`, the
SEARCHING → FOUND(L) transition fires exactly when the node `t` is
dequeued, enters the visited set, AND its fetch and record extraction
succeed (a record is emitted); `L` is that node's generation-level.  Mere
dequeue plus visited-set entry is not sufficient. -/
theorem target_transition_characterisation (cfg : Config) (w : World)
    (fuel : Nat) (t : String) (htt : cfg.endId = some t) (hne : t ≠ "") :
    ((scrape cfg w fuel).targetFound = true →
      (t, (scrape cfg w fuel).targetLevel) ∈ (scrape cfg w fuel).procLog ∧
        emits w t (scrape cfg w fuel).targetLevel) ∧
    ((scrape cfg w fuel).targetFound = false →
      ∀ l, (t, l) ∈ (scrape cfg w fuel).procLog → ¬ emits w t l) :=
  (GInv_scrape cfg w fuel).tgtChar t htt hne

/-- Witness for the amended C2 on a concrete run in which the target is
found. -/
theorem target_transition_characterisation_witness :
    (((scrape (cfgTarget "A" "B" 5) wC6 20).targetFound = true →
      ("B", (scrape (cfgTarget "A" "B" 5) wC6 20).targetLevel) ∈
          (scrape (cfgTarget "A" "B" 5) wC6 20).procLog ∧
        emits wC6 "B" (scrape (cfgTarget "A" "B" 5) wC6 20).targetLevel) ∧
    ((scrape (cfgTarget "A" "B" 5) wC6 20).targetFound = false →
      ∀ l, ("B", l) ∈ (scrape (cfgTarget "A" "B" 5) wC6 20).procLog →
        ¬ emits wC6 "B" l)) :=
  target_transition_characterisation (cfgTarget "A" "B" 5) wC6 20 "B" rfl
    (by decide)

/-- Counterexample to C3: in world `wC2` the target `"B"` is reachable at
generation-level 2 (one citation step from the start), well within the
max-depth bound 5 — yet the run processes `"D"` at level 3 > 2, because
`"B"`'s record extraction fails and the FOUND state is never entered. -/
theorem target_sweep_cex :
    HasPath (advOf wC2) "A" "B" 1 ∧
    (cfgTarget "A" "B" 5).endId = some "B" ∧
    "B" ∈ (scrape (cfgTarget "A" "B" 5) wC2 10).visited ∧
    ("D", 3) ∈ (scrape (cfgTarget "A" "B" 5) wC2 10).procLog ∧
    (scrape (cfgTarget "A" "B" 5) wC2 10).finished = true := by
  refine ⟨HasPath.tail HasPath.refl (by decide), rfl, by decide, by decide,
    by decide⟩

/-- C3 (amended): if the FOUND(L) transition fired during a (halted) run —
which, per the amended C2, requires the target's fetch and record
extraction to succeed, not mere reachability — then no node is ever
processed (entered into the visited set, fetched, or parsed) at a level
greater than L, every node enqueued at a level ≤ L has been processed, the
entries discarded at the halt all have level > L, and the run indeed
halts. -/
theorem target_sweep_halting (cfg : Config) (w : World) (fuel : Nat)
    (hfin : (scrape cfg w fuel).finished = true)
    (hfound : (scrape cfg w fuel).targetFound = true) :
    (∀ e ∈ (scrape cfg w fuel).procLog, e.2 ≤ (scrape cfg w fuel).targetLevel) ∧
    (∀ e ∈ (scrape cfg w fuel).enqLog,
      e.2 ≤ (scrape cfg w fuel).targetLevel →
        e.1 ∈ (scrape cfg w fuel).visited) ∧
    (∀ e ∈ (scrape cfg w fuel).queue,
      (scrape cfg w fuel).targetLevel < e.2) ∧
    (∃ n, (scrape cfg w n).finished = true) := by
  have G := GInv_scrape cfg w fuel
  refine ⟨(G.foundLevel hfound).2, ?_, G.finFound hfin hfound,
    scrape_terminates cfg w⟩
  intro e he hle
  rcases G.enqAcct e he with h | h | h
  · have := G.finFound hfin hfound e h
    omega
  · exact h
  · rcases h.2 with h' | h'
    · have := (G.foundLevel hfound).1
      omega
    · have := h'.2
      omega

/-- Witness for the amended C3: in world `wC3am` the target `"B"` is found
at level 2; `"D"` is enqueued at level 3 and discarded unprocessed. -/
theorem target_sweep_halting_witness :
    (∀ e ∈ (scrape (cfgTarget "A" "B" 5) wC3am 20).procLog,
      e.2 ≤ (scrape (cfgTarget "A" "B" 5) wC3am 20).targetLevel) ∧
    (∀ e ∈ (scrape (cfgTarget "A" "B" 5) wC3am 20).enqLog,
      e.2 ≤ (scrape (cfgTarget "A" "B" 5) wC3am 20).targetLevel →
        e.1 ∈ (scrape (cfgTarget "A" "B" 5) wC3am 20).visited) ∧
    (∀ e ∈ (scrape (cfgTarget "A" "B" 5) wC3am 20).queue,
      (scrape (cfgTarget "A" "B" 5) wC3am 20).targetLevel < e.2) ∧
    (∃ n, (scrape (cfgTarget "A" "B" 5) wC3am n).finished = true) := by
  exact target_sweep_halting (cfgTarget "A" "B" 5) wC3am 20 (by decide)
    (by decide)

/-- C4: in a (halted) run in which the target was never found (in
particular when none is configured), no node is ever processed (entered
into the visited set, fetched, or parsed) at a level greater than the
configured max depth, every node enqueued at a level ≤ max depth has been
processed, the entries discarded at the halt all have level > max depth,
and the run indeed halts. -/
theorem depth_sweep_halting (cfg : Config) (w : World) (fuel : Nat)
    (hfin : (scrape cfg w fuel).finished = true)
    (hnf : (scrape cfg w fuel).targetFound = false) :
    (∀ e ∈ (scrape cfg w fuel).procLog, e.2 ≤ cfg.endDepth) ∧
    (∀ e ∈ (scrape cfg w fuel).enqLog,
      e.2 ≤ cfg.endDepth → e.1 ∈ (scrape cfg w fuel).visited) ∧
    (∀ e ∈ (scrape cfg w fuel).queue, cfg.endDepth < e.2) ∧
    (∃ n, (scrape cfg w n).finished = true) := by
  have G := GInv_scrape cfg w fuel
  refine ⟨G.notFound hnf, ?_, G.finDepth hfin hnf, scrape_terminates cfg w⟩
  intro e he hle
  rcases G.enqAcct e he with h | h | h
  · have := G.finDepth hfin hnf e h
    omega
  · exact h
  · rcases h.2 with h' | h'
    · omega
    · rw [hnf] at h'
      exact absurd h'.1 (by simp)

/-- Witness for C4 on the no-target diamond run. -/
theorem depth_sweep_halting_witness :
    (∀ e ∈ (scrape (cfgNoTarget "A" 5) wC5 20).procLog,
      e.2 ≤ (cfgNoTarget "A" 5).endDepth) ∧
    (∀ e ∈ (scrape (cfgNoTarget "A" 5) wC5 20).enqLog,
      e.2 ≤ (cfgNoTarget "A" 5).endDepth →
        e.1 ∈ (scrape (cfgNoTarget "A" 5) wC5 20).visited) ∧
    (∀ e ∈ (scrape (cfgNoTarget "A" 5) wC5 20).queue,
      (cfgNoTarget "A" 5).endDepth < e.2) ∧
    (∃ n, (scrape (cfgNoTarget "A" 5) wC5 n).finished = true) := by
  exact depth_sweep_halting (cfgNoTarget "A" 5) wC5 20 (by decide)
    (by decide)

/-- C5: in every run each identifier is fetched and parsed at most once
(the processing log — one entry per visited-set insertion, each insertion
followed by that identifier's single fetch+parse — never repeats an
identifier), and, under the documented site convention that each page's
first profile link carries the fetched identifier, each identifier appears
in the Record Store at most once, even when an identifier is enqueued
several times. -/
theorem identifiers_processed_once (cfg : Config) (w : World) (fuel : Nat)
    (hself : ∀ v doc, w v = some doc →
      ∀ pl, doc.profileLinks.head? = some pl → pl.1 = v) :
    ((scrape cfg w fuel).procLog.map Prod.fst).Nodup ∧
    ((scrape cfg w fuel).mathematicians.map Mathematician.id).Nodup := by
  have G := GInv_scrape cfg w fuel
  refine ⟨G.procNodup, ?_⟩
  rw [G.mathsEq]
  exact (procRecords_ids_sublist w hself (scrape cfg w fuel).procLog).nodup
    G.procNodup

/-- Witness for C5 on the diamond world where `"D"` is enqueued twice. -/
theorem identifiers_processed_once_witness :
    ((scrape (cfgNoTarget "A" 5) wC5 20).procLog.map Prod.fst).Nodup ∧
    ((scrape (cfgNoTarget "A" 5) wC5 20).mathematicians.map
      Mathematician.id).Nodup := by
  refine identifiers_processed_once (cfgNoTarget "A" 5) wC5 20 ?_
  intro v doc hdoc pl hpl
  unfold wC5 at hdoc
  split at hdoc
  · rename_i hv
    cases Option.some.inj hdoc
    rw [hv]
    exact (congrArg Prod.fst (Option.some.inj hpl)).symm
  · split at hdoc
    · rename_i hv
      cases Option.some.inj hdoc
      rw [hv]
      exact (congrArg Prod.fst (Option.some.inj hpl)).symm
    · split at hdoc
      · rename_i hv
        cases Option.some.inj hdoc
        rw [hv]
        exact (congrArg Prod.fst (Option.some.inj hpl)).symm
      · cases Option.some.inj hdoc
        exact (congrArg Prod.fst (Option.some.inj hpl)).symm

/-- C7 (amended): the Advisor Index list stored under advisor `a` holds,
for each processed citing node in processing order, one copy of that
node's id per occurrence of `a` in the node's extracted advisor list.
Citing ids are therefore duplicated exactly when one document lists the
same advisor link more than once; if every document lists `a` at most
once, the list under `a` has no duplicates. -/
theorem advisor_index_characterisation (cfg : Config) (w : World) (fuel : Nat) :
    (∀ a, (scrape cfg w fuel).parentMap a =
      parentList w (scrape cfg w fuel).procLog a) ∧
    (∀ a, (∀ v, (advOf w v).count a ≤ 1) →
      ((scrape cfg w fuel).parentMap a).Nodup) := by
  have G := GInv_scrape cfg w fuel
  refine ⟨G.pmapEq, ?_⟩
  intro a hcnt
  rw [G.pmapEq a]
  exact parentList_nodup w a hcnt (scrape cfg w fuel).procLog G.procNodup

/-- Witness for the amended C7 on the diamond world, at advisor `"D"`. -/
theorem advisor_index_characterisation_witness :
    ((scrape (cfgNoTarget "A" 5) wC5 20).parentMap "D" =
      parentList wC5 (scrape (cfgNoTarget "A" 5) wC5 20).procLog "D") ∧
    ((scrape (cfgNoTarget "A" 5) wC5 20).parentMap "D").Nodup := by
  have h := advisor_index_characterisation (cfgNoTarget "A" 5) wC5 20
  refine ⟨h.1 "D", h.2 "D" ?_⟩
  intro v
  by_cases h1 : v = "A"
  · subst h1
    decide
  · by_cases h2 : v = "B"
    · subst h2
      decide
    · by_cases h3 : v = "C"
      · subst h3
        decide
      · have hv : wC5 v = some (mkDoc v []) := by simp [wC5, h1, h2, h3]
        rw [advOf_eq_of_some wC5 v _ hv]
        simp [mkDoc, get_advisors]

/-! ### Shortest-path distances -/

theorem hasPath_zero (adv : String → List String) (s v : String)
    (h : HasPath adv s v 0) : v = s := by
  cases h
  rfl

theorem exists_isDist (adv : String → List String) (s v : String) (n : Nat)
    (h : HasPath adv s v n) : ∃ d, IsDist adv s v d := by
  haveI : DecidablePred fun k => HasPath adv s v k := fun k => Classical.dec _
  exact ⟨Nat.find ⟨n, h⟩, Nat.find_spec (⟨n, h⟩ : ∃ k, HasPath adv s v k),
    fun e he => Nat.find_min (⟨n, h⟩ : ∃ k, HasPath adv s v k) he⟩

theorem isDist_le (adv : String → List String) (s v : String) (d n : Nat)
    (h : IsDist adv s v d) (hp : HasPath adv s v n) : d ≤ n := by
  by_contra hlt
  exact h.2 n (by omega) hp

theorem isDist_unique (adv : String → List String) (s v : String) (d d' : Nat)
    (h : IsDist adv s v d) (h' : IsDist adv s v d') : d = d' :=
  Nat.le_antisymm (isDist_le adv s v d d' h h'.1) (isDist_le adv s v d' d h' h.1)

theorem isDist_start (adv : String → List String) (s : String) :
    IsDist adv s s 0 :=
  ⟨HasPath.refl, fun e he => absurd he (Nat.not_lt_zero e)⟩

theorem isDist_zero (adv : String → List String) (s v : String)
    (h : IsDist adv s v 0) : v = s :=
  hasPath_zero adv s v h.1

theorem isDist_pred (adv : String → List String) (s v : String) (d : Nat)
    (h : IsDist adv s v (d + 1)) : ∃ p, IsDist adv s p d ∧ v ∈ adv p := by
  obtain ⟨hp, hmin⟩ := h
  cases hp with
  | tail hu ha =>
    rename_i p
    refine ⟨p, ⟨hu, ?_⟩, ha⟩
    intro e he hpe
    exact hmin (e + 1) (by omega) (HasPath.tail hpe ha)

theorem head?_mem' {α : Type} (l : List α) (x : α) (h : l.head? = some x) :
    x ∈ l := by
  cases l with
  | nil => exact Option.noConfusion h
  | cons a as =>
    have : a = x := Option.some.inj h
    rw [← this]
    exact List.mem_cons_self _ _

theorem frontier_extend (cfg : Config) (w : World) (s : St)
    (G : GInv cfg w s) (D : DInv cfg w s)
    (c : String) (l : Nat) (rest : List (String × Nat))
    (hf : s.finished = false) (hq : s.queue = (c, l) :: rest)
    (hnorest : ∀ x ∈ rest, l + 1 ≤ x.2)
    (v : String) (d : Nat) (hdist : IsDist (advOf w) cfg.startId v d)
    (hdl : d + 1 = l) :
    v ∈ s.visited ∨ v = c := by
  have hhead : (c, l) ∈ s.queue := by
    rw [hq]
    exact List.mem_cons_self _ _
  have hhd? : s.queue.head? = some (c, l) := by
    rw [hq]
    rfl
  cases d with
  | zero =>
    have hv : v = cfg.startId := isDist_zero _ _ _ hdist
    have hl : l = 1 := by omega
    have hcp := G.queuePath (c, l) hhead
    rw [hl] at hcp
    have hcs : c = cfg.startId := hasPath_zero _ _ _ (by simpa using hcp)
    right
    rw [hv, hcs]
  | succ d' =>
    obtain ⟨p, hp, hvp⟩ := isDist_pred _ _ _ _ hdist
    have hple : d' + 1 < l := by omega
    have hpvis : p ∈ s.visited := D.frontier hf (c, l) hhd? p d' hp hple
    rcases D.closure hf p hpvis v hvp with h | ⟨la, hla⟩
    · exact Or.inl h
    · by_cases hvv : v ∈ s.visited
      · exact Or.inl hvv
      · obtain ⟨dv, hdv, hmem⟩ := D.queueMin hf (v, la) hla hvv
        have hde : dv = d' + 1 := isDist_unique _ _ _ _ _ hdv hdist
        subst hde
        rw [hq] at hmem
        rcases List.mem_cons.1 hmem with h | h
        · rw [Prod.mk.injEq] at h
          exact Or.inr h.1
        · have := hnorest _ h
          simp only at this
          omega

theorem DInv_skip_pres (cfg : Config) (w : World) (s : St)
    (G : GInv cfg w s) (D : DInv cfg w s)
    (c : String) (l : Nat) (rest : List (String × Nat))
    (hf : s.finished = false) (hq : s.queue = (c, l) :: rest)
    (hv : c ∈ s.visited) :
    DInv cfg w { s with queue := rest } := by
  have hhead : (c, l) ∈ s.queue := by
    rw [hq]
    exact List.mem_cons_self _ _
  have hhd? : s.queue.head? = some (c, l) := by
    rw [hq]
    rfl
  have hpw := G.pairwise
  rw [hq] at hpw
  obtain ⟨hhd, hrest⟩ := List.pairwise_cons.1 hpw
  refine ⟨D.recDist, ?_, ?_, ?_⟩
  · intro _ e he hev
    obtain ⟨d, hd, hmem⟩ := D.queueMin hf e (by rw [hq]; exact List.mem_cons_of_mem _ he) hev
    rw [hq] at hmem
    rcases List.mem_cons.1 hmem with h | h
    · rw [Prod.mk.injEq] at h
      rw [h.1] at hev
      exact absurd hv hev
    · exact ⟨d, hd, h⟩
  · intro _ hd' hhd' v d hdist hlt
    have hd'mem : hd' ∈ rest := head?_mem' rest hd' hhd'
    have hub : hd'.2 ≤ l + 1 := G.spread hd' (by rw [hq]; exact List.mem_cons_of_mem _ hd'mem) (c, l) hhead
    rcases Nat.lt_or_ge (d + 1) l with h | h
    · exact D.frontier hf (c, l) hhd? v d hdist h
    · have hdl : d + 1 = l := by omega
      have hd'2 : hd'.2 = l + 1 := by omega
      have hnorest : ∀ x ∈ rest, l + 1 ≤ x.2 := by
        cases hre : rest with
        | nil =>
          intro x hx
          rw [hre] at hd'mem
          exact absurd hd'mem (List.not_mem_nil hd')
        | cons r rs =>
          have hdr : hd' = r := by
            rw [hre] at hhd'
            exact (Option.some.inj hhd').symm
          rw [hre] at hrest
          obtain ⟨hr1, _⟩ := List.pairwise_cons.1 hrest
          intro x hx
          rcases List.mem_cons.1 hx with h' | h'
          · rw [h', ← hdr, hd'2]
          · have := hr1 x h'
            rw [← hdr, hd'2] at this
            omega
      rcases frontier_extend cfg w s G D c l rest hf hq hnorest v d hdist hdl with h' | h'
      · exact h'
      · rw [h']
        exact hv
  · intro _ v hvv a ha
    rcases D.closure hf v hvv a ha with h | ⟨la, hla⟩
    · exact Or.inl h
    · rw [hq] at hla
      rcases List.mem_cons.1 hla with h | h
      · rw [Prod.mk.injEq] at h
        rw [h.1]
        exact Or.inl hv
      · exact Or.inr ⟨la, h⟩

theorem DInv_process_core (cfg : Config) (w : World) (s s' : St)
    (hgw : goodWorld w) (G : GInv cfg w s) (D : DInv cfg w s)
    (c : String) (l : Nat) (rest : List (String × Nat)) (doc : Doc)
    (m : Mathematician)
    (hf : s.finished = false) (hq : s.queue = (c, l) :: rest)
    (hv : c ∉ s.visited) (hw : w c = some doc)
    (hm : parse_mathematician doc l (get_advisors doc) = some m)
    (hq' : s'.queue = rest ++ newsOf (c :: s.visited) (get_advisors doc) l)
    (hv' : s'.visited = c :: s.visited)
    (hmm : s'.mathematicians = s.mathematicians ++ [m])
    (hf' : s'.finished = false) : DInv cfg w s' := by
  have hhead : (c, l) ∈ s.queue := by
    rw [hq]
    exact List.mem_cons_self _ _
  have hhd? : s.queue.head? = some (c, l) := by
    rw [hq]
    rfl
  have hpw := G.pairwise
  rw [hq] at hpw
  obtain ⟨hhd, hrest⟩ := List.pairwise_cons.1 hpw
  have hl1 : 1 ≤ l := G.pos (c, l) hhead
  have hl11 : l - 1 + 1 = l := by omega
  have hpath_c : HasPath (advOf w) cfg.startId c (l - 1) := G.queuePath (c, l) hhead
  -- the head is processed exactly at its distance level: l = dist(c) + 1
  obtain ⟨dc, hdc, hdcmem⟩ := D.queueMin hf (c, l) hhead hv
  have hminq : ∀ x ∈ s.queue, l ≤ x.2 := by
    intro x hx
    rw [hq] at hx
    rcases List.mem_cons.1 hx with h | h
    · rw [h]
    · exact hhd x h
  have h1 : l ≤ dc + 1 := hminq (c, dc + 1) hdcmem
  have h2 : dc ≤ l - 1 := isDist_le _ _ _ _ _ hdc hpath_c
  have hdceq : dc = l - 1 := by omega
  have hdistc : IsDist (advOf w) cfg.startId c (l - 1) := hdceq ▸ hdc
  -- goodWorld: the parsed record carries the processed id and level
  obtain ⟨doc2, hw2, hp2⟩ := hgw c
  have hdd : doc2 = doc := by
    rw [hw] at hw2
    exact (Option.some.inj hw2).symm
  rw [hdd] at hp2
  obtain ⟨m2, hm2, hid2, hlv2, _⟩ := hp2 l (get_advisors doc)
  have hmm2 : m2 = m := by
    rw [hm] at hm2
    exact (Option.some.inj hm2).symm
  rw [hmm2] at hid2 hlv2
  refine ⟨?_, ?_, ?_, ?_⟩
  · -- record levels are distances
    intro mm hmem
    rw [hmm] at hmem
    rcases List.mem_append.1 hmem with h | h
    · exact D.recDist mm h
    · have : mm = m := List.mem_singleton.1 h
      subst this
      refine ⟨l - 1, ?_, ?_⟩
      · rw [hlv2]
        omega
      · rw [hid2]
        exact hdistc
  · -- unvisited queued ids also sit in the queue at their distance level
    intro _ e he hev
    rw [hq'] at he
    rw [hv'] at hev
    have hevv : e.1 ∉ s.visited := fun hx => hev (List.mem_cons_of_mem _ hx)
    have hevc : e.1 ≠ c := by
      intro hx
      rw [hx] at hev
      exact hev (List.mem_cons_self _ _)
    rcases List.mem_append.1 he with hre | hne
    · obtain ⟨d, hd, hmem⟩ := D.queueMin hf e
        (by rw [hq]; exact List.mem_cons_of_mem _ hre) hevv
      rw [hq] at hmem
      rcases List.mem_cons.1 hmem with h | h
      · rw [Prod.mk.injEq] at h
        exact absurd h.1 hevc
      · exact ⟨d, hd, by rw [hq']; exact List.mem_append_left _ h⟩
    · obtain ⟨ha, hanv, hlv⟩ := (mem_newsOf _ _ _ e).1 hne
      by_cases hao : ∃ la, (e.1, la) ∈ rest
      · obtain ⟨la, hla⟩ := hao
        obtain ⟨d, hd, hmem⟩ := D.queueMin hf (e.1, la)
          (by rw [hq]; exact List.mem_cons_of_mem _ hla) hevv
        rw [hq] at hmem
        rcases List.mem_cons.1 hmem with h | h
        · rw [Prod.mk.injEq] at h
          exact absurd h.1 hevc
        · exact ⟨d, hd, by rw [hq']; exact List.mem_append_left _ h⟩
      · -- a genuinely fresh advisor: its distance is exactly l
        have hedge : e.1 ∈ advOf w c := by
          rw [advOf_eq_of_some w c doc hw]
          exact ha
        have hpa : HasPath (advOf w) cfg.startId e.1 l := by
          have := HasPath.tail hpath_c hedge
          rwa [hl11] at this
        obtain ⟨da, hda⟩ := exists_isDist _ _ _ l hpa
        have hdale : da ≤ l := isDist_le _ _ _ _ _ hda hpa
        rcases Nat.lt_or_ge da l with hlt | hge
        · exfalso
          cases da with
          | zero =>
            have he1 : e.1 = cfg.startId := isDist_zero _ _ _ hda
            rcases Nat.lt_or_ge 1 l with hl2 | hl2
            · have := D.frontier hf (c, l) hhd? e.1 0 hda (by omega)
              exact hevv this
            · have hleq : l = 1 := by omega
              rw [hleq] at hpath_c
              have : c = cfg.startId := hasPath_zero _ _ _ (by simpa using hpath_c)
              exact hevc (by rw [he1, this])
          | succ d' =>
            obtain ⟨p, hp, hvp⟩ := isDist_pred _ _ _ _ hda
            have hple : d' + 1 < l := by omega
            have hpvis := D.frontier hf (c, l) hhd? p d' hp hple
            rcases D.closure hf p hpvis e.1 hvp with hx | ⟨la, hla⟩
            · exact hevv hx
            · rw [hq] at hla
              rcases List.mem_cons.1 hla with h | h
              · rw [Prod.mk.injEq] at h
                exact hevc h.1
              · exact hao ⟨la, h⟩
        · have hdal : da = l := Nat.le_antisymm hdale hge
          refine ⟨l, hdal ▸ hda, ?_⟩
          rw [hq']
          refine List.mem_append_right _ ((mem_newsOf _ _ _ (e.1, l + 1)).2 ?_)
          exact ⟨ha, hanv, rfl⟩
  · -- frontier: ids strictly closer than the new head are visited
    intro _ hd' hhd' v d hdist hlt
    rw [hq'] at hhd'
    have hd'mem : hd' ∈ rest ++ newsOf (c :: s.visited) (get_advisors doc) l :=
      head?_mem' _ hd' hhd'
    have hub : hd'.2 ≤ l + 1 := by
      rcases List.mem_append.1 hd'mem with h | h
      · exact G.spread hd' (by rw [hq]; exact List.mem_cons_of_mem _ h) (c, l) hhead
      · rw [newsOf_level _ _ _ hd' h]
    rw [hv']
    rcases Nat.lt_or_ge (d + 1) l with h | h
    · exact List.mem_cons_of_mem _ (D.frontier hf (c, l) hhd? v d hdist h)
    · have hdl : d + 1 = l := by omega
      have hnorest : ∀ x ∈ rest, l + 1 ≤ x.2 := by
        cases hre : rest with
        | nil =>
          intro x hx
          exact absurd hx (List.not_mem_nil x)
        | cons r rs =>
          have hdr : hd' = r := by
            rw [hre] at hhd'
            exact (Option.some.inj hhd').symm
          rw [hre] at hrest
          obtain ⟨hr1, _⟩ := List.pairwise_cons.1 hrest
          have hr2 : r.2 = l + 1 := by
            rw [← hdr]
            omega
          intro x hx
          rcases List.mem_cons.1 hx with h' | h'
          · rw [h', hr2]
          · have := hr1 x h'
            omega
      rcases frontier_extend cfg w s G D c l rest hf hq hnorest v d hdist hdl with h' | h'
      · exact List.mem_cons_of_mem _ h'
      · rw [h']
        exact List.mem_cons_self _ _
  · -- closure: advisors of visited ids are visited or queued
    intro _ v hvv a ha
    rw [hv'] at hvv
    rcases List.mem_cons.1 hvv with hvc | hvo
    · subst hvc
      by_cases hac : a ∈ v :: s.visited
      · left
        rw [hv']
        exact hac
      · right
        refine ⟨l + 1, ?_⟩
        rw [hq']
        refine List.mem_append_right _ ((mem_newsOf _ _ _ (a, l + 1)).2 ?_)
        refine ⟨?_, hac, rfl⟩
        rw [advOf_eq_of_some w v doc hw] at ha
        exact ha
    · rcases D.closure hf v hvo a ha with h | ⟨la, hla⟩
      · left
        rw [hv']
        exact List.mem_cons_of_mem _ h
      · rw [hq] at hla
        rcases List.mem_cons.1 hla with h | h
        · rw [Prod.mk.injEq] at h
          left
          rw [hv', h.1]
          exact List.mem_cons_self _ _
        · right
          exact ⟨la, by rw [hq']; exact List.mem_append_left _ h⟩

theorem DInv_finish (cfg : Config) (w : World) (s s' : St) (D : DInv cfg w s)
    (hmm : s'.mathematicians = s.mathematicians) (hf' : s'.finished = true) :
    DInv cfg w s' := by
  refine ⟨?_, ?_, ?_, ?_⟩
  · intro m hm
    rw [hmm] at hm
    exact D.recDist m hm
  · intro hf
    rw [hf'] at hf
    exact absurd hf (by simp)
  · intro hf
    rw [hf'] at hf
    exact absurd hf (by simp)
  · intro hf
    rw [hf'] at hf
    exact absurd hf (by simp)

theorem DInv_step (cfg : Config) (w : World) (s : St) (hgw : goodWorld w)
    (G : GInv cfg w s) (D : DInv cfg w s) : DInv cfg w (step cfg w s) := by
  refine step_cases cfg w s (DInv cfg w) (fun _ => D)
    (fun hf hq => DInv_finish cfg w s _ D rfl rfl)
    (fun c l rest hf hq ht hl => DInv_finish cfg w s _ D rfl rfl)
    (fun c l rest hf hq ht hl => DInv_finish cfg w s _ D rfl rfl)
    (fun c l rest hf hq _ _ hv => DInv_skip_pres cfg w s G D c l rest hf hq hv)
    ?_ ?_ ?_ ?_
  · intro c l rest hf hq hb1 hb2 hv hw
    obtain ⟨doc2, hw2, _⟩ := hgw c
    rw [hw] at hw2
    exact absurd hw2 (Option.noConfusion)
  · intro c l rest doc hf hq hb1 hb2 hv hw hm
    obtain ⟨doc2, hw2, hp2⟩ := hgw c
    have hdd : doc2 = doc := by
      rw [hw] at hw2
      exact (Option.some.inj hw2).symm
    rw [hdd] at hp2
    obtain ⟨m2, hm2, _⟩ := hp2 l (get_advisors doc)
    rw [hm] at hm2
    exact absurd hm2 (Option.noConfusion)
  · intro c l rest doc m hf hq hb1 hb2 hv hw hm hh
    exact DInv_process_core cfg w s _ hgw G D c l rest doc m hf hq hv hw hm
      rfl rfl rfl hf
  · intro c l rest doc m hf hq hb1 hb2 hv hw hm hh
    exact DInv_process_core cfg w s _ hgw G D c l rest doc m hf hq hv hw hm
      rfl rfl rfl hf

theorem DInv_init (cfg : Config) (w : World) : DInv cfg w (initSt cfg) := by
  refine ⟨?_, ?_, ?_, ?_⟩
  · intro m hm
    exact absurd hm (List.not_mem_nil m)
  · intro _ e he _
    have he' : e = (cfg.startId, 1) := List.mem_singleton.1 he
    subst he'
    exact ⟨0, isDist_start _ _, List.mem_singleton.2 rfl⟩
  · intro _ hd hhd v d _ hlt
    have : (cfg.startId, 1) = hd := Option.some.inj hhd
    rw [← this] at hlt
    simp only at hlt
    omega
  · intro _ v hv
    exact absurd hv (List.not_mem_nil v)

theorem DInv_scrape (cfg : Config) (w : World) (hgw : goodWorld w) (n : Nat) :
    DInv cfg w (scrape cfg w n) := by
  unfold scrape
  have : ∀ (k : Nat) (s : St), GInv cfg w s → DInv cfg w s →
      DInv cfg w (scrapeLoop cfg w k s) := by
    intro k
    induction k with
    | zero => intro s _ D; exact D
    | succ k ih =>
      intro s G D
      exact ih (step cfg w s) (GInv_step cfg w s G) (DInv_step cfg w s hgw G D)
  exact this n (initSt cfg) (GInv_init cfg w) (DInv_init cfg w)

/-- C6: in every run over a failure-free world (all fetches succeed, all
record extractions succeed, pages self-identify), the generation-level
assigned to each record equals one plus the shortest-path distance, in
citation steps, from the start identifier to the record's identifier: the
start node sits at level 1 and each child at its parent's level + 1, with
the FIFO queue non-decreasing in level. -/
theorem record_level_is_distance (cfg : Config) (w : World) (fuel : Nat)
    (hgw : goodWorld w) :
    ∀ m ∈ (scrape cfg w fuel).mathematicians,
      ∃ d, m.level = d + 1 ∧ IsDist (advOf w) cfg.startId m.id d :=
  (DInv_scrape cfg w hgw fuel).recDist

/-- Witness for C6 on the concrete failure-free world `wC6`: the record for
`"C"` is emitted at level 2, and applying the theorem to it yields that the
shortest-path distance from `"A"` to `"C"` is 1. -/
theorem record_level_is_distance_witness :
    IsDist (advOf wC6) "A" "C" 1 := by
  have hgw : goodWorld wC6 := by
    intro v
    by_cases h1 : v = "A"
    · subst h1
      exact ⟨mkDoc "A" ["B", "C"], rfl, fun l a => ⟨_, rfl, rfl, rfl, rfl⟩⟩
    · have hv : wC6 v = some (mkDoc v []) := by simp [wC6, h1]
      exact ⟨mkDoc v [], hv, fun l a => ⟨_, rfl, rfl, rfl, rfl⟩⟩
  obtain ⟨d, hd, hdist⟩ := record_level_is_distance (cfgTarget "A" "B" 5) wC6 20
    hgw
    { name := "Name", id := "C", university := "", year := "",
      degree_type := "", nationality := "", level := 2,
      url := "https://genealogy.math.ndsu.nodak.edu/id.php?id=C",
      descended_from := [] }
    (by decide)
  have hd2 : 2 = d + 1 := hd
  have hd1 : d = 1 := by omega
  rw [hd1] at hdist
  exact hdist

/-! ### Idempotence of whitespace normalisation -/

theorem ws_dropWhile_chain' {α : Type} (R : α → α → Prop) (q : α → Bool) :
    ∀ l : List α, List.Chain' R l → List.Chain' R (l.dropWhile q) := by
  intro l
  induction l with
  | nil => intro h; exact h
  | cons a as ih =>
    intro h
    rw [List.dropWhile_cons]
    by_cases hq : q a = true
    · simp only [hq, if_true]
      exact ih h.tail
    · simp only [hq, if_false]
      exact h

theorem ws_mem_dropWhile {α : Type} (q : α → Bool) :
    ∀ (l : List α) (x : α), x ∈ l.dropWhile q → x ∈ l := by
  intro l
  induction l with
  | nil => intro x hx; exact hx
  | cons a as ih =>
    intro x hx
    rw [List.dropWhile_cons] at hx
    by_cases hq : q a = true
    · simp only [hq, if_true] at hx
      exact List.mem_cons_of_mem _ (ih x hx)
    · simp only [hq, if_false] at hx
      exact hx

theorem ws_dropWhile_head {α : Type} (q : α → Bool) :
    ∀ (l : List α) (c : α), (l.dropWhile q).head? = some c → q c = false := by
  intro l
  induction l with
  | nil => intro c hc; exact Option.noConfusion hc
  | cons a as ih =>
    intro c hc
    rw [List.dropWhile_cons] at hc
    by_cases hq : q a = true
    · simp only [hq, if_true] at hc
      exact ih c hc
    · simp only [hq, if_false] at hc
      have : a = c := Option.some.inj hc
      rw [← this]
      exact Bool.eq_false_iff.2 hq

theorem ws_dropWhile_self {α : Type} (q : α → Bool) (l : List α)
    (h : ∀ c, l.head? = some c → q c = false) : l.dropWhile q = l := by
  cases l with
  | nil => rfl
  | cons a as =>
    rw [List.dropWhile_cons]
    have := h a rfl
    simp [this]

theorem ws_dropWhile_decomp {α : Type} (q : α → Bool) :
    ∀ l : List α, ∃ u, u ++ l.dropWhile q = l := by
  intro l
  induction l with
  | nil => exact ⟨[], rfl⟩
  | cons a as ih =>
    rw [List.dropWhile_cons]
    by_cases hq : q a = true
    · simp only [hq, if_true]
      obtain ⟨u, hu⟩ := ih
      exact ⟨a :: u, by rw [List.cons_append, hu]⟩
    · simp only [hq, if_false]
      exact ⟨[], rfl⟩

theorem subWsF_norm1 :
    ∀ (l : List Char) (prev : Bool) (c : Char), c ∈ subWsF prev l →
      isPySpace c = true → c = ' ' := by
  intro l
  induction l with
  | nil => intro prev c hc; exact absurd hc (List.not_mem_nil c)
  | cons a as ih =>
    intro prev c hc hsp
    unfold subWsF at hc
    by_cases ha : isPySpace a = true
    · simp only [ha, if_true] at hc
      cases prev with
      | true => exact ih true c hc hsp
      | false =>
        simp only [Bool.false_eq_true, if_false] at hc
        rcases List.mem_cons.1 hc with h | h
        · exact h
        · exact ih true c h hsp
    · simp only [ha, if_false] at hc
      rcases List.mem_cons.1 hc with h | h
      · rw [h] at hsp
        exact absurd hsp ha
      · exact ih false c h hsp

theorem subWsF_true_head :
    ∀ (l : List Char) (c : Char), (subWsF true l).head? = some c →
      isPySpace c = false := by
  intro l
  induction l with
  | nil => intro c hc; exact Option.noConfusion hc
  | cons a as ih =>
    intro c hc
    unfold subWsF at hc
    by_cases ha : isPySpace a = true
    · simp only [ha, if_true] at hc
      exact ih c hc
    · simp only [ha, if_false] at hc
      have : a = c := Option.some.inj hc
      rw [← this]
      exact Bool.eq_false_iff.2 ha

theorem subWsF_nodd :
    ∀ (l : List Char) (prev : Bool),
      List.Chain' (fun a b => ¬(isPySpace a = true ∧ isPySpace b = true))
        (subWsF prev l) := by
  intro l
  induction l with
  | nil => intro prev; exact List.chain'_nil
  | cons a as ih =>
    intro prev
    unfold subWsF
    by_cases ha : isPySpace a = true
    · simp only [ha, if_true]
      cases prev with
      | true => exact ih true
      | false =>
        simp only [Bool.false_eq_true, if_false]
        refine List.chain'_cons'.2 ⟨?_, ih true⟩
        intro y hy
        have := subWsF_true_head as y hy
        intro ⟨_, h2⟩
        rw [this] at h2
        exact Bool.noConfusion h2
    · simp only [ha, if_false]
      refine List.chain'_cons'.2 ⟨?_, ih false⟩
      intro y hy
      intro ⟨h1, _⟩
      exact ha h1

theorem subWsF_fix :
    ∀ l : List Char, (∀ c ∈ l, isPySpace c = true → c = ' ') →
      List.Chain' (fun a b => ¬(isPySpace a = true ∧ isPySpace b = true)) l →
      subWsF false l = l ∧
        ((∀ c, l.head? = some c → isPySpace c = false) → subWsF true l = l) := by
  intro l
  induction l with
  | nil => intro _ _; exact ⟨rfl, fun _ => rfl⟩
  | cons a as ih =>
    intro hn1 hdd
    obtain ⟨hhd, htl⟩ := List.chain'_cons'.1 hdd
    have hn1' : ∀ c ∈ as, isPySpace c = true → c = ' ' :=
      fun c hc => hn1 c (List.mem_cons_of_mem _ hc)
    have ihs := ih hn1' htl
    constructor
    · unfold subWsF
      by_cases ha : isPySpace a = true
      · simp only [ha, if_true, Bool.false_eq_true, if_false]
        have haeq : a = ' ' := hn1 a (List.mem_cons_self _ _) ha
        have hcs : ∀ c, as.head? = some c → isPySpace c = false := by
          intro d hd
          cases hsd : isPySpace d
          · rfl
          · exact absurd ⟨ha, hsd⟩ (hhd d (Option.mem_def.2 hd))
        rw [ihs.2 hcs, haeq]
      · simp only [ha, Bool.false_eq_true, if_false]
        rw [ihs.1]
    · intro hhead
      have ha : isPySpace a = false := hhead a rfl
      unfold subWsF
      rw [ha]
      simp only [Bool.false_eq_true, if_false]
      rw [ihs.1]

theorem pyStrip_mem (l : List Char) (x : Char) (hx : x ∈ pyStrip l) : x ∈ l := by
  unfold pyStrip at hx
  rw [List.mem_reverse] at hx
  have h1 := ws_mem_dropWhile isPySpace _ x hx
  rw [List.mem_reverse] at h1
  exact ws_mem_dropWhile isPySpace l x h1

theorem pyStrip_chain' (l : List Char)
    (h : List.Chain' (fun a b => ¬(isPySpace a = true ∧ isPySpace b = true)) l) :
    List.Chain' (fun a b => ¬(isPySpace a = true ∧ isPySpace b = true))
      (pyStrip l) := by
  unfold pyStrip
  have h1 := ws_dropWhile_chain' _ isPySpace l h
  have h2 : List.Chain' (fun a b => ¬(isPySpace a = true ∧ isPySpace b = true))
      (l.dropWhile isPySpace).reverse := by
    rw [List.chain'_reverse]
    exact h1.imp (fun a b hab => fun ⟨p1, p2⟩ => hab ⟨p2, p1⟩)
  have h3 := ws_dropWhile_chain' _ isPySpace _ h2
  rw [List.chain'_reverse]
  exact h3.imp (fun a b hab => fun ⟨p1, p2⟩ => hab ⟨p2, p1⟩)

theorem pyStrip_head (l : List Char) :
    ∀ c, (pyStrip l).head? = some c → isPySpace c = false := by
  intro c hc
  obtain ⟨u, hu⟩ := ws_dropWhile_decomp isPySpace (l.dropWhile isPySpace).reverse
  have hx : ((l.dropWhile isPySpace).reverse.dropWhile isPySpace).reverse ++
      u.reverse = l.dropWhile isPySpace := by
    have := congrArg List.reverse hu
    rw [List.reverse_append, List.reverse_reverse] at this
    exact this
  cases ht : ((l.dropWhile isPySpace).reverse.dropWhile isPySpace).reverse with
  | nil =>
    unfold pyStrip at hc
    rw [ht] at hc
    exact Option.noConfusion hc
  | cons b bs =>
    unfold pyStrip at hc
    rw [ht] at hc
    have hbc : b = c := Option.some.inj hc
    rw [ht] at hx
    rw [List.cons_append] at hx
    have : (l.dropWhile isPySpace).head? = some b := by
      rw [← hx]
      rfl
    rw [hbc] at this
    exact ws_dropWhile_head isPySpace l c this

theorem pyStrip_last (l : List Char) :
    ∀ c, (pyStrip l).reverse.head? = some c → isPySpace c = false := by
  intro c hc
  unfold pyStrip at hc
  rw [List.reverse_reverse] at hc
  exact ws_dropWhile_head isPySpace _ c hc

theorem pyStrip_self (x : List Char)
    (hh : ∀ c, x.head? = some c → isPySpace c = false)
    (hl : ∀ c, x.reverse.head? = some c → isPySpace c = false) :
    pyStrip x = x := by
  unfold pyStrip
  rw [ws_dropWhile_self isPySpace x hh]
  rw [ws_dropWhile_self isPySpace x.reverse hl]
  exact List.reverse_reverse x

theorem collapse_idem_list (l : List Char) :
    pyStrip (subWsF false (pyStrip (subWsF false l))) =
      pyStrip (subWsF false l) := by
  have hn1 : ∀ c ∈ pyStrip (subWsF false l), isPySpace c = true → c = ' ' :=
    fun c hc => subWsF_norm1 l false c (pyStrip_mem _ c hc)
  have hdd := pyStrip_chain' _ (subWsF_nodd l false)
  rw [(subWsF_fix _ hn1 hdd).1]
  exact pyStrip_self _ (pyStrip_head (subWsF false l))
    (pyStrip_last (subWsF false l))

/-- C9: `collapse_whitespace` (collapse every whitespace run to one space,
then strip both ends) is idempotent: normalising an already-normalised
string returns it unchanged, for every input string. -/
theorem collapse_whitespace_idem (s : String) :
    collapse_whitespace (collapse_whitespace s) = collapse_whitespace s := by
  unfold collapse_whitespace
  exact congrArg String.mk (collapse_idem_list s.data)
